import Mathlib

/-!
Shallow embedding of the libbf-rs interpreter core (tokenizer, parser,
runtime) and proofs of the specification claims.

Conventions of the embedding:
* Rust `u8` cells are `Nat` values; `isize` quantities are `Int`, with the
  wrapping conversions written out explicitly (`% 2 ^ 64`, `% 256`).
* Rust's in-place mutation is modelled by explicit state passing: a function
  that mutates `self` returns the updated value.
* `Read`/`Write` byte streams are lists of bytes: the input stream is the
  list of bytes still to be read, the output stream the list written so far.
* Functions whose Rust counterparts can loop forever (the interpreters, the
  parser) take a fuel argument and return `none` when it runs out; `none`
  also stands for the `panic!`/`unreachable!` paths, which the Rust code
  treats as fatal programming errors.
-/

/-- `program::Instruction` (src/program/mod.rs). -/
inductive Instruction where
  | PAdd (operand : Int)
  | DAdd (operand : Int)
  | Output
  | Input
  | UntilZero (sub : List Instruction)

/-- `error::RuntimeError` (src/error/mod.rs).  The payload of the Rust
`IoError` variant (the underlying transport error) is irrelevant to the
claims and dropped. -/
inductive RuntimeError where
  | OutOfMemoryBounds (address : Int)
  | IoError
  | Eof
deriving DecidableEq

/-- `runtime::MemorySize` (src/runtime/mod.rs). -/
inductive MemorySize where
  | Fixed (len : Nat)
  | RightInfinite
  | BothInfinite
deriving DecidableEq

/-- `runtime::DEFAULT_MEMSIZE` (src/runtime/mod.rs). -/
def DEFAULT_MEMSIZE : MemorySize := MemorySize.Fixed 30000

/-- `runtime::internal::Memory` (src/runtime/internal.rs): two growable byte
buffers, `right_data` for addresses `0..` and `left_data` for `..-1`. -/
structure Memory where
  size : MemorySize
  right_data : List Nat
  left_data : List Nat
deriving DecidableEq

/-- `Vec::resize(new_len, v)`: truncate or extend with copies of `v`. -/
def vecResize (l : List Nat) (newLen : Nat) (v : Nat) : List Nat :=
  l.take newLen ++ List.replicate (newLen - l.length) v

/-- `Memory::new` (src/runtime/internal.rs). -/
def Memory.new (size : MemorySize) : Memory :=
  match size with
  | .Fixed len => { size := size, right_data := List.replicate len 0, left_data := [] }
  | _ => { size := size, right_data := [], left_data := [] }

/-- `Memory::get_mut` (src/runtime/internal.rs).  The Rust function hands out
a mutable reference into the (possibly auto-extended) buffer; here it returns
the extended memory together with the byte currently stored at `address`. -/
def Memory.get_mut (m : Memory) (address : Int) : Except RuntimeError (Memory × Nat) :=
  if 0 ≤ address then
    let a := address.toNat
    if m.right_data.length ≤ a then
      match m.size with
      | .Fixed _ => .error (.OutOfMemoryBounds address)
      | _ =>
        let rd := vecResize m.right_data (a + 1) 0
        .ok ({ m with right_data := rd }, rd.getD a 0)
    else
      .ok (m, m.right_data.getD a 0)
  else
    match m.size with
    | .BothInfinite =>
      let la := (-(address + 1)).toNat
      if m.left_data.length ≤ la then
        let ld := vecResize m.left_data (la + 1) 0
        .ok ({ m with left_data := ld }, ld.getD la 0)
      else
        .ok (m, m.left_data.getD la 0)
    | _ => .error (.OutOfMemoryBounds address)

/-- Writing through the reference returned by `Memory::get_mut`: store `v` at
`address` (which the caller has just resolved successfully). -/
def Memory.store (m : Memory) (address : Int) (v : Nat) : Memory :=
  if 0 ≤ address then
    { m with right_data := m.right_data.set address.toNat v }
  else
    { m with left_data := m.left_data.set (-(address + 1)).toNat v }

/-- `runtime::internal::NextAction` (src/runtime/internal.rs). -/
inductive NextAction where
  | Next
  | StepIn (sub : List Instruction)

/-- `runtime::internal::Runtime` (src/runtime/internal.rs): I/O streams,
memory and the data pointer. -/
structure Runtime where
  input : List Nat
  output : List Nat
  memory : Memory
  pointer : Int
deriving DecidableEq

/-- Two's-complement wraparound of an `isize` computation. -/
def wrapIsize (x : Int) : Int := (x + 2 ^ 63) % 2 ^ 64 - 2 ^ 63

/-- The `as u8` cast: keep the low 8 bits. -/
def u8OfInt (x : Int) : Nat := (x % 256).toNat

/-- `Runtime::new` (src/runtime/internal.rs), with the given input stream. -/
def Runtime.new (input : List Nat) (memsize : MemorySize) : Runtime :=
  { input := input, output := [], memory := Memory.new memsize, pointer := 0 }

/-- `Runtime::add_pointer` (src/runtime/internal.rs). -/
def Runtime.add_pointer (rt : Runtime) (operand : Int) : Except RuntimeError Runtime :=
  .ok { rt with pointer := rt.pointer + operand }

/-- `Runtime::add_data` (src/runtime/internal.rs):
`*data = (*data as isize).wrapping_add(operand) as u8`. -/
def Runtime.add_data (rt : Runtime) (operand : Int) : Except RuntimeError Runtime :=
  match rt.memory.get_mut rt.pointer with
  | .error e => .error e
  | .ok (m, v) =>
    .ok { rt with memory := m.store rt.pointer (u8OfInt (wrapIsize ((v : Int) + operand))) }

/-- `Runtime::input` (src/runtime/internal.rs): `read` one byte; zero bytes
read means `RuntimeError::Eof`. -/
def Runtime.inputOp (rt : Runtime) : Except RuntimeError Runtime :=
  match rt.memory.get_mut rt.pointer with
  | .error e => .error e
  | .ok (m, _) =>
    match rt.input with
    | [] => .error .Eof
    | b :: rest => .ok { rt with memory := m.store rt.pointer b, input := rest }

/-- `Runtime::output` (src/runtime/internal.rs): write the pointed-at byte. -/
def Runtime.outputOp (rt : Runtime) : Except RuntimeError Runtime :=
  match rt.memory.get_mut rt.pointer with
  | .error e => .error e
  | .ok (m, v) => .ok { rt with memory := m, output := rt.output ++ [v] }

/-- `Runtime::exec_one` (src/runtime/internal.rs). -/
def Runtime.exec_one (rt : Runtime) (inst : Instruction) :
    Except RuntimeError (Runtime × NextAction) :=
  match inst with
  | .PAdd operand =>
    match rt.add_pointer operand with
    | .error e => .error e
    | .ok rt' => .ok (rt', .Next)
  | .DAdd operand =>
    match rt.add_data operand with
    | .error e => .error e
    | .ok rt' => .ok (rt', .Next)
  | .Output =>
    match rt.outputOp with
    | .error e => .error e
    | .ok rt' => .ok (rt', .Next)
  | .Input =>
    match rt.inputOp with
    | .error e => .error e
    | .ok rt' => .ok (rt', .Next)
  | .UntilZero sub =>
    match rt.memory.get_mut rt.pointer with
    | .error e => .error e
    | .ok (m, v) =>
      if v ≠ 0 then .ok ({ rt with memory := m }, .StepIn sub)
      else .ok ({ rt with memory := m }, .Next)

/-- `Runner::run` / `Runner::run_internal` (src/runtime/runner.rs), fuelled.
`.inl inst` is the `while let NextAction::StepIn(sub) = exec_one(inst)?` loop
on a single instruction, `.inr insts` the `for inst in instructions` walk;
the Rust pair of mutually recursive loops is merged into one function so the
recursion is structural on the fuel. -/
def runnerGo : Nat → Runtime → Instruction ⊕ List Instruction →
    Option (Except RuntimeError Runtime)
  | 0, _, _ => none
  | fuel + 1, rt, .inl inst =>
    match rt.exec_one inst with
    | .error e => some (.error e)
    | .ok (rt', .Next) => some (.ok rt')
    | .ok (rt', .StepIn sub) =>
      match runnerGo fuel rt' (.inr sub) with
      | none => none
      | some (.error e) => some (.error e)
      | some (.ok rt₂) => runnerGo fuel rt₂ (.inl inst)
  | _ + 1, rt, .inr [] => some (.ok rt)
  | fuel + 1, rt, .inr (inst :: rest) =>
    match runnerGo fuel rt (.inl inst) with
    | none => none
    | some (.error e) => some (.error e)
    | some (.ok rt') => runnerGo fuel rt' (.inr rest)

/-- `Runner::run` on a whole program (src/runtime/runner.rs). -/
def runnerRunList (fuel : Nat) (rt : Runtime) (insts : List Instruction) :
    Option (Except RuntimeError Runtime) :=
  runnerGo fuel rt (.inr insts)

/-- The `while let NextAction::StepIn` loop of `Runner::run_internal` on one
instruction. -/
def runnerRunOne (fuel : Nat) (rt : Runtime) (inst : Instruction) :
    Option (Except RuntimeError Runtime) :=
  runnerGo fuel rt (.inl inst)

/-- `Runtime::input` of the older free-function runtime (src/runtime/mod.rs):
`read_exact`, which reports exhausted input as an I/O error
(`io::ErrorKind::UnexpectedEof`), not as `RuntimeError::Eof`. -/
def Runtime.input_exact (rt : Runtime) : Except RuntimeError Runtime :=
  match rt.memory.get_mut rt.pointer with
  | .error e => .error e
  | .ok (m, _) =>
    match rt.input with
    | [] => .error .IoError
    | b :: rest => .ok { rt with memory := m.store rt.pointer b, input := rest }

/-- `Runtime::run` of the free-function runtime (src/runtime/mod.rs), fuelled.
`loopBody = false` is the `for inst in program` walk; `loopBody = true` is the
`while *self.memory.get_mut(self.pointer)? != 0 { self.run(sub)?; }` loop with
body `insts`. -/
def runtimeGo : Nat → Runtime → Bool → List Instruction →
    Option (Except RuntimeError Runtime)
  | 0, _, _, _ => none
  | _ + 1, rt, false, [] => some (.ok rt)
  | fuel + 1, rt, false, inst :: rest =>
    match inst with
    | .PAdd operand =>
      match rt.add_pointer operand with
      | .error e => some (.error e)
      | .ok rt' => runtimeGo fuel rt' false rest
    | .DAdd operand =>
      match rt.add_data operand with
      | .error e => some (.error e)
      | .ok rt' => runtimeGo fuel rt' false rest
    | .Output =>
      match rt.outputOp with
      | .error e => some (.error e)
      | .ok rt' => runtimeGo fuel rt' false rest
    | .Input =>
      match rt.input_exact with
      | .error e => some (.error e)
      | .ok rt' => runtimeGo fuel rt' false rest
    | .UntilZero sub =>
      match runtimeGo fuel rt true sub with
      | none => none
      | some (.error e) => some (.error e)
      | some (.ok rt') => runtimeGo fuel rt' false rest
  | fuel + 1, rt, true, sub =>
    match rt.memory.get_mut rt.pointer with
    | .error e => some (.error e)
    | .ok (m, v) =>
      if v = 0 then some (.ok { rt with memory := m })
      else
        match runtimeGo fuel { rt with memory := m } false sub with
        | none => none
        | some (.error e) => some (.error e)
        | some (.ok rt₂) => runtimeGo fuel rt₂ true sub

/-- `runtime::run_with_memsize` (src/runtime/mod.rs), fuelled. -/
def runtimeRunList (fuel : Nat) (rt : Runtime) (insts : List Instruction) :
    Option (Except RuntimeError Runtime) :=
  runtimeGo fuel rt false insts

-- Sanity checks (corresponding to tests in src/runtime/mod.rs).
example :
    (runnerRunList 20 (Runtime.new [42, 53] (.Fixed 1))
        [.Input, .Output, .Input, .Output]).map (Except.map Runtime.output) =
      some (.ok [42, 53]) := rfl

example :
    (runnerRunList 20 (Runtime.new [254] (.Fixed 1))
        [.Input, .DAdd 3, .Output]).map (Except.map Runtime.output) =
      some (.ok [1]) := rfl

example :
    runtimeRunList 20 (Runtime.new [] (.Fixed 1)) [.Input] =
      some (.error .IoError) := rfl

example :
    runnerRunList 20 (Runtime.new [] (.Fixed 1)) [.Input] =
      some (.error .Eof) := rfl

example :
    runnerRunList 10 (Runtime.new [] DEFAULT_MEMSIZE) [.PAdd (-1), .DAdd 1] =
      some (.error (.OutOfMemoryBounds (-1))) := rfl

example :
    runnerRunList 10 (Runtime.new [] (.BothInfinite)) [.PAdd (-1), .DAdd 1] =
      some (.ok { input := [], output := [],
                  memory := { size := .BothInfinite, right_data := [], left_data := [1] },
                  pointer := -1 }) := rfl

/-- `Program::first_index` (src/program/mod.rs). -/
def first_index (program : List Instruction) : Option (List Nat) :=
  if program.isEmpty then none else some [0]

/-- `instruction_at` / `Index<&ProgramIndex> for Program`
(src/program/mod.rs).  `none` models the panics (empty index, index out of
range, or an inner index element hitting a non-loop instruction). -/
def instruction_at : List Instruction → List Nat → Option Instruction
  | _, [] => none
  | insts, head :: tail =>
    match insts[head]? with
    | none => none
    | some inst =>
      match tail with
      | [] => some inst
      | _ :: _ =>
        match inst with
        | .UntilZero sub => instruction_at sub tail
        | _ => none

/-- `Program::next_index_internal` (src/program/mod.rs): advance the deepest
index; the `Bool` is the return value (`false` means the deepest level was
exhausted and the index is unchanged).  `none` models the panics. -/
def next_index_internal : List Instruction → List Nat → Option (List Nat × Bool)
  | _, [] => none
  | insts, head :: tail =>
    match tail with
    | [] =>
      if head + 1 < insts.length then some ([head + 1], true)
      else some ([head], false)
    | _ :: _ =>
      match insts[head]? with
      | some (.UntilZero sub) =>
        match next_index_internal sub tail with
        | none => none
        | some (tail', b) => some (head :: tail', b)
      | some _ => none
      | none => none

/-- The state of a `StepRunner` (src/runtime/step_runner.rs): the runtime and
the current `ProgramIndex` (`none` once the program has finished).  The
program itself is passed separately to `stepFn`. -/
structure MState where
  rt : Runtime
  index : Option (List Nat)

/-- `StepRunner::step` (src/runtime/step_runner.rs).  `ProgramIndex.step_in`
appends a `0`; `ProgramIndex.step_out` pops the last element and reports
whether any elements remain.  `none` models the indexing panics. -/
def stepFn (program : List Instruction) (s : MState) :
    Option (Except RuntimeError MState) :=
  match s.index with
  | none => some (.ok s)
  | some index =>
    match instruction_at program index with
    | none => none
    | some inst =>
      match s.rt.exec_one inst with
      | .error e => some (.error e)
      | .ok (rt', .Next) =>
        match next_index_internal program index with
        | none => none
        | some (index', true) => some (.ok { rt := rt', index := some index' })
        | some (index', false) =>
          let popped := index'.dropLast
          if popped.isEmpty then some (.ok { rt := rt', index := none })
          else some (.ok { rt := rt', index := some popped })
      | .ok (rt', .StepIn sub) =>
        if sub.isEmpty then some (.ok { rt := rt', index := s.index })
        else some (.ok { rt := rt', index := some (index ++ [0]) })

/-- One successful step of the step driver. -/
def StepRel (program : List Instruction) (s s' : MState) : Prop :=
  stepFn program s = some (.ok s')

/-- "Driving the step driver": zero or more successful steps. -/
def Steps (program : List Instruction) : MState → MState → Prop :=
  Relation.ReflTransGen (StepRel program)

-- Sanity: stepping [DAdd 2, UntilZero [DAdd (-1)]] from the start.
example :
    stepFn [.DAdd 2, .UntilZero [.DAdd (-1)]]
      { rt := Runtime.new [] .RightInfinite, index := first_index [.DAdd 2, .UntilZero [.DAdd (-1)]] } =
    some (.ok { rt := { input := [], output := [],
                        memory := { size := .RightInfinite, right_data := [2], left_data := [] },
                        pointer := 0 },
                index := some [1] }) := rfl

/-- Big-step execution of an instruction sequence, the common semantics of
both run-to-completion drivers.  The `enter` rule mirrors the body-wrapping
contract of `exec_one`: after a loop body finishes, the same instruction list
(starting with the loop head) is executed again, re-testing the condition. -/
inductive ExecList : Runtime → List Instruction → Runtime → Prop where
  | nil (rt : Runtime) : ExecList rt [] rt
  | next {rt rt₁ rt₂ : Runtime} {inst : Instruction} {rest : List Instruction} :
      rt.exec_one inst = .ok (rt₁, .Next) →
      ExecList rt₁ rest rt₂ →
      ExecList rt (inst :: rest) rt₂
  | enter {rt rt₁ rt₂ rt₃ : Runtime} {inst : Instruction} {sub rest : List Instruction} :
      rt.exec_one inst = .ok (rt₁, .StepIn sub) →
      ExecList rt₁ sub rt₂ →
      ExecList rt₂ (inst :: rest) rt₃ →
      ExecList rt (inst :: rest) rt₃

theorem ExecList.nil_inv {rt rt' : Runtime} (h : ExecList rt [] rt') : rt' = rt := by
  cases h; rfl

/-- Only a loop instruction can signal `StepIn`, and it hands over its own
body. -/
theorem exec_one_StepIn {rt rt' : Runtime} {inst : Instruction} {sub : List Instruction}
    (h : rt.exec_one inst = .ok (rt', .StepIn sub)) : inst = .UntilZero sub := by
  cases inst <;> simp only [Runtime.exec_one, Runtime.add_pointer] at h <;>
    (try split at h) <;> (try split at h) <;> simp_all

/-- On success, `read_exact`-based input behaves like `read`-based input. -/
theorem input_exact_ok {rt rt' : Runtime} (h : rt.input_exact = .ok rt') :
    rt.inputOp = .ok rt' := by
  unfold Runtime.input_exact at h
  unfold Runtime.inputOp
  split at h <;> try exact absurd h (by simp)
  split at h <;> simp_all

/-- Soundness of the fuelled `Runner::run` against the big-step semantics. -/
theorem runnerGo_sound (fuel : Nat) : ∀ rt : Runtime,
    (∀ inst r, runnerGo fuel rt (.inl inst) = some (.ok r) →
      ∀ rest r₂, ExecList r rest r₂ → ExecList rt (inst :: rest) r₂) ∧
    (∀ l r, runnerGo fuel rt (.inr l) = some (.ok r) → ExecList rt l r) := by
  induction fuel with
  | zero =>
    intro rt
    constructor
    · intro inst r h; simp [runnerGo] at h
    · intro l r h; simp [runnerGo] at h
  | succ fuel ih =>
    intro rt
    constructor
    · intro inst r h rest r₂ hrest
      simp only [runnerGo] at h
      cases hx : rt.exec_one inst with
      | error e => simp [hx] at h
      | ok p =>
        obtain ⟨rt', act⟩ := p
        cases act with
        | Next =>
          simp only [hx] at h
          obtain rfl : rt' = r := by simpa using h
          exact ExecList.next hx hrest
        | StepIn sub =>
          simp only [hx] at h
          cases hsub : runnerGo fuel rt' (.inr sub) with
          | none => simp [hsub] at h
          | some res =>
            cases res with
            | error e => simp [hsub] at h
            | ok rt₂ =>
              simp only [hsub] at h
              exact ExecList.enter hx ((ih rt').2 sub rt₂ hsub)
                ((ih rt₂).1 inst r h rest r₂ hrest)
    · intro l r h
      cases l with
      | nil =>
        obtain rfl : rt = r := by simpa [runnerGo] using h
        exact ExecList.nil _
      | cons inst rest =>
        simp only [runnerGo] at h
        cases hone : runnerGo fuel rt (.inl inst) with
        | none => simp [hone] at h
        | some res =>
          cases res with
          | error e => simp [hone] at h
          | ok rt' =>
            simp only [hone] at h
            exact (ih rt).1 inst rt' hone rest r ((ih rt').2 rest r h)

/-- Soundness of the fuelled free-function `runtime::run` against the same
big-step semantics (on successful executions the two run-to-completion
drivers agree). -/
theorem runtimeGo_sound (fuel : Nat) : ∀ rt : Runtime,
    (∀ l r, runtimeGo fuel rt false l = some (.ok r) → ExecList rt l r) ∧
    (∀ sub r, runtimeGo fuel rt true sub = some (.ok r) →
      ∀ rest r₂, ExecList r rest r₂ → ExecList rt (.UntilZero sub :: rest) r₂) := by
  induction fuel with
  | zero =>
    intro rt
    constructor
    · intro l r h; simp [runtimeGo] at h
    · intro sub r h; simp [runtimeGo] at h
  | succ fuel ih =>
    intro rt
    constructor
    · intro l r h
      cases l with
      | nil =>
        obtain rfl : rt = r := by simpa [runtimeGo] using h
        exact ExecList.nil _
      | cons inst rest =>
        cases inst with
        | PAdd d =>
          simp only [runtimeGo, Runtime.add_pointer] at h
          exact ExecList.next (by simp [Runtime.exec_one, Runtime.add_pointer])
            ((ih _).1 rest r h)
        | DAdd d =>
          simp only [runtimeGo] at h
          cases hx : rt.add_data d with
          | error e => simp [hx] at h
          | ok rt' =>
            simp only [hx] at h
            exact ExecList.next (by simp [Runtime.exec_one, hx]) ((ih rt').1 rest r h)
        | Output =>
          simp only [runtimeGo] at h
          cases hx : rt.outputOp with
          | error e => simp [hx] at h
          | ok rt' =>
            simp only [hx] at h
            exact ExecList.next (by simp [Runtime.exec_one, hx]) ((ih rt').1 rest r h)
        | Input =>
          simp only [runtimeGo] at h
          cases hx : rt.input_exact with
          | error e => simp [hx] at h
          | ok rt' =>
            simp only [hx] at h
            exact ExecList.next (by simp [Runtime.exec_one, input_exact_ok hx])
              ((ih rt').1 rest r h)
        | UntilZero sub =>
          simp only [runtimeGo] at h
          cases hloop : runtimeGo fuel rt true sub with
          | none => simp [hloop] at h
          | some res =>
            cases res with
            | error e => simp [hloop] at h
            | ok rt' =>
              simp only [hloop] at h
              exact (ih rt).2 sub rt' hloop rest r ((ih rt').1 rest r h)
    · intro sub r h rest r₂ hrest
      simp only [runtimeGo] at h
      cases hget : rt.memory.get_mut rt.pointer with
      | error e => simp [hget] at h
      | ok p =>
        obtain ⟨m, v⟩ := p
        simp only [hget] at h
        by_cases hv : v = 0
        · rw [if_pos hv] at h
          obtain rfl : { rt with memory := m } = r := by simpa using h
          exact ExecList.next (by simp [Runtime.exec_one, hget, hv]) hrest
        · rw [if_neg hv] at h
          cases hbody : runtimeGo fuel { rt with memory := m } false sub with
          | none => simp [hbody] at h
          | some res =>
            cases res with
            | error e => simp [hbody] at h
            | ok rt₂ =>
              simp only [hbody] at h
              exact ExecList.enter (by simp [Runtime.exec_one, hget, hv])
                ((ih _).1 sub rt₂ hbody) ((ih rt₂).2 sub r h rest r₂ hrest)

/-- `Ctx P q body`: the index prefix `q` addresses, inside program `P`, a
chain of nested loops whose innermost body is `body` (`q = []` means the top
level).  Every index the step driver holds is `q ++ [i]` for such a `q`. -/
inductive Ctx : List Instruction → List Nat → List Instruction → Prop where
  | top (P : List Instruction) : Ctx P [] P
  | cons {P : List Instruction} {q : List Nat} {body : List Instruction} {i : Nat}
      {sub : List Instruction} :
      Ctx P q body → body[i]? = some (.UntilZero sub) → Ctx P (q ++ [i]) sub

theorem instruction_at_single (insts : List Instruction) (head : Nat) :
    instruction_at insts [head] = insts[head]? := by
  cases hx : insts[head]? <;> simp [instruction_at, hx]

theorem instruction_at_cons (insts : List Instruction) (head t : Nat) (ts : List Nat) :
    instruction_at insts (head :: t :: ts) =
      (match insts[head]? with
       | none => none
       | some inst =>
         match inst with
         | .UntilZero sub => instruction_at sub (t :: ts)
         | _ => none) := rfl

theorem next_index_cons (insts : List Instruction) (head t : Nat) (ts : List Nat) :
    next_index_internal insts (head :: t :: ts) =
      (match insts[head]? with
       | some (.UntilZero sub) =>
         match next_index_internal sub (t :: ts) with
         | none => none
         | some (tail', b) => some (head :: tail', b)
       | some _ => none
       | none => none) := rfl

theorem instruction_at_ctx {P : List Instruction} {q : List Nat} {body : List Instruction}
    (h : Ctx P q body) :
    ∀ rest : List Nat, rest ≠ [] → instruction_at P (q ++ rest) = instruction_at body rest := by
  induction h with
  | top => intro rest _; rfl
  | @cons q body i sub hctx hsub ih =>
    intro rest hne
    cases rest with
    | nil => exact absurd rfl hne
    | cons r rs =>
      rw [List.append_assoc, List.singleton_append, ih (i :: r :: rs) (by simp),
        instruction_at_cons, hsub]

theorem next_index_ctx {P : List Instruction} {q : List Nat} {body : List Instruction}
    (h : Ctx P q body) :
    ∀ rest : List Nat, rest ≠ [] →
      next_index_internal P (q ++ rest) =
        (next_index_internal body rest).map (fun p => (q ++ p.1, p.2)) := by
  induction h with
  | top =>
    intro rest _
    cases hx : next_index_internal _ rest with
    | none => simp [hx]
    | some p => obtain ⟨a, b⟩ := p; simp [hx]
  | @cons q body i sub hctx hsub ih =>
    intro rest hne
    cases rest with
    | nil => exact absurd rfl hne
    | cons r rs =>
      rw [List.append_assoc, List.singleton_append, ih (i :: r :: rs) (by simp),
        next_index_cons, hsub]
      cases hx : next_index_internal sub (r :: rs) with
      | none => simp [hx]
      | some p => obtain ⟨a, b⟩ := p; simp [hx]

/-- The `next_index_internal` base case: a one-element index advances within
`body` or reports exhaustion, leaving the index unchanged. -/
theorem next_index_single (body : List Instruction) (i : Nat) :
    next_index_internal body [i] =
      if i + 1 < body.length then some ([i + 1], true) else some ([i], false) := rfl

/-- One driver step, case `Next`, with a further sibling available: the index
advances to it. -/
theorem stepFn_next_adv {P : List Instruction} {q : List Nat} {body : List Instruction}
    {i : Nat} {inst : Instruction} {rt rt' : Runtime}
    (hctx : Ctx P q body) (hbi : body[i]? = some inst)
    (hexec : rt.exec_one inst = .ok (rt', .Next)) (hlt : i + 1 < body.length) :
    stepFn P { rt := rt, index := some (q ++ [i]) } =
      some (.ok { rt := rt', index := some (q ++ [i + 1]) }) := by
  have hat : instruction_at P (q ++ [i]) = some inst := by
    rw [instruction_at_ctx hctx [i] (by simp)]; simp [instruction_at, hbi]
  have hni : next_index_internal P (q ++ [i]) = some (q ++ [i + 1], true) := by
    rw [next_index_ctx hctx [i] (by simp), next_index_single, if_pos hlt]; rfl
  simp [stepFn, hat, hexec, hni]

/-- One driver step, case `Next`, with the deepest level exhausted: the index
pops to the enclosing loop, or the program finishes at top level. -/
theorem stepFn_next_out {P : List Instruction} {q : List Nat} {body : List Instruction}
    {i : Nat} {inst : Instruction} {rt rt' : Runtime}
    (hctx : Ctx P q body) (hbi : body[i]? = some inst)
    (hexec : rt.exec_one inst = .ok (rt', .Next)) (hge : ¬ i + 1 < body.length) :
    stepFn P { rt := rt, index := some (q ++ [i]) } =
      some (.ok { rt := rt', index := if q = [] then none else some q }) := by
  have hat : instruction_at P (q ++ [i]) = some inst := by
    rw [instruction_at_ctx hctx [i] (by simp)]; simp [instruction_at, hbi]
  have hni : next_index_internal P (q ++ [i]) = some (q ++ [i], false) := by
    rw [next_index_ctx hctx [i] (by simp), next_index_single, if_neg hge]; rfl
  simp only [stepFn, hat, hexec, hni, List.dropLast_concat]
  cases q <;> simp

/-- One driver step, case `StepIn` with a non-empty body: enter the body at
its first instruction. -/
theorem stepFn_stepin {P : List Instruction} {q : List Nat} {body : List Instruction}
    {i : Nat} {inst : Instruction} {rt rt' : Runtime} {sub : List Instruction}
    (hctx : Ctx P q body) (hbi : body[i]? = some inst)
    (hexec : rt.exec_one inst = .ok (rt', .StepIn sub)) (hne : sub ≠ []) :
    stepFn P { rt := rt, index := some (q ++ [i]) } =
      some (.ok { rt := rt', index := some ((q ++ [i]) ++ [0]) }) := by
  have hat : instruction_at P (q ++ [i]) = some inst := by
    rw [instruction_at_ctx hctx [i] (by simp)]; simp [instruction_at, hbi]
  simp [stepFn, hat, hexec, hne]

/-- One driver step, case `StepIn` with an empty body: the index is left
unchanged (the loop head will be executed again). -/
theorem stepFn_stepin_empty {P : List Instruction} {q : List Nat} {body : List Instruction}
    {i : Nat} {inst : Instruction} {rt rt' : Runtime}
    (hctx : Ctx P q body) (hbi : body[i]? = some inst)
    (hexec : rt.exec_one inst = .ok (rt', .StepIn [])) :
    stepFn P { rt := rt, index := some (q ++ [i]) } =
      some (.ok { rt := rt', index := some (q ++ [i]) }) := by
  have hat : instruction_at P (q ++ [i]) = some inst := by
    rw [instruction_at_ctx hctx [i] (by simp)]; simp [instruction_at, hbi]
  simp [stepFn, hat, hexec]

/-- Simulation: a big-step execution of the instructions from position `i` of
the current loop body is matched by the step driver, which ends either on the
enclosing loop head (`q` non-empty) or with the index gone (top level). -/
theorem ExecList_steps {rt : Runtime} {l : List Instruction} {rt' : Runtime}
    (h : ExecList rt l rt') :
    ∀ (P : List Instruction) (q : List Nat) (body : List Instruction) (i : Nat),
      Ctx P q body → body.drop i = l → i < body.length →
      Steps P { rt := rt, index := some (q ++ [i]) }
        { rt := rt', index := if q = [] then none else some q } := by
  induction h with
  | nil rt =>
    intro P q body i hctx hdrop hlt
    exact absurd (List.drop_eq_nil_iff.mp hdrop) (by omega)
  | @next rt rt₁ rt₂ inst rest hexec hrest ih =>
    intro P q body i hctx hdrop hlt
    have hcons : inst :: rest = body[i] :: body.drop (i + 1) :=
      hdrop.symm.trans (List.drop_eq_getElem_cons hlt)
    have hbi : body[i]? = some inst := by
      rw [List.getElem?_eq_getElem hlt, (List.cons.inj hcons).1]
    have hdrop' : body.drop (i + 1) = rest := ((List.cons.inj hcons).2).symm
    by_cases hc : i + 1 < body.length
    · exact Relation.ReflTransGen.head (stepFn_next_adv hctx hbi hexec hc)
        (ih P q body (i + 1) hctx hdrop' hc)
    · have hrest_nil : rest = [] := by
        rw [← hdrop']; exact List.drop_eq_nil_of_le (by omega)
      rw [hrest_nil] at hrest
      obtain rfl := ExecList.nil_inv hrest
      exact Relation.ReflTransGen.single (stepFn_next_out hctx hbi hexec hc)
  | @enter rt rt₁ rt₂ rt₃ inst sub rest hexec hsub hagain ih_sub ih_again =>
    intro P q body i hctx hdrop hlt
    have hcons : inst :: rest = body[i] :: body.drop (i + 1) :=
      hdrop.symm.trans (List.drop_eq_getElem_cons hlt)
    have hbi : body[i]? = some inst := by
      rw [List.getElem?_eq_getElem hlt, (List.cons.inj hcons).1]
    have hinst : inst = .UntilZero sub := exec_one_StepIn hexec
    by_cases hs : sub = []
    · subst hs
      obtain rfl := ExecList.nil_inv hsub
      exact Relation.ReflTransGen.head (stepFn_stepin_empty hctx hbi hexec)
        (ih_again P q body i hctx hdrop hlt)
    · have hctx' : Ctx P (q ++ [i]) sub := Ctx.cons hctx (by rw [hbi, hinst])
      have hsteps1 := ih_sub P (q ++ [i]) sub 0 hctx' rfl (List.length_pos.mpr hs)
      rw [if_neg (by simp)] at hsteps1
      exact Relation.ReflTransGen.head (stepFn_stepin hctx hbi hexec hs)
        (hsteps1.trans (ih_again P q body i hctx hdrop hlt))

/-- Simulation at the top level: from `first_index` to the finished state. -/
theorem ExecList_steps_top {rt : Runtime} {P : List Instruction} {rt' : Runtime}
    (h : ExecList rt P rt') :
    Steps P { rt := rt, index := first_index P } { rt := rt', index := none } := by
  cases P with
  | nil =>
    obtain rfl := ExecList.nil_inv h
    exact Relation.ReflTransGen.refl
  | cons a rest =>
    have hzero := ExecList_steps h (a :: rest) [] (a :: rest) 0 (Ctx.top _) rfl (by simp)
    simpa [first_index] using hzero

/-- A finished step driver is a fixed point of `stepFn`. -/
theorem stepFn_none_fix (P : List Instruction) (rt : Runtime) :
    stepFn P { rt := rt, index := none } = some (.ok { rt := rt, index := none }) := rfl

theorem Steps_none_eq {P : List Instruction} {s s' : MState} (hs : s.index = none)
    (h : Steps P s s') : s' = s := by
  induction h with
  | refl => rfl
  | tail hsteps hstep ih =>
    rw [ih] at hstep
    obtain ⟨rt, idx⟩ := s
    obtain rfl : idx = none := hs
    have h2 := (stepFn_none_fix P rt).symm.trans hstep
    simpa using h2.symm

/-- The step driver is deterministic: any two drives to completion from the
same state end in the same state. -/
theorem steps_deterministic {P : List Instruction} {s s₁ : MState}
    (h₁ : Steps P s s₁) (hf₁ : s₁.index = none) :
    ∀ s₂, Steps P s s₂ → s₂.index = none → s₁ = s₂ := by
  induction h₁ using Relation.ReflTransGen.head_induction_on with
  | refl =>
    intro s₂ h₂ _
    exact (Steps_none_eq hf₁ h₂).symm
  | head hstep hrest ih =>
    rename_i a c
    intro s₂ h₂ hf₂
    rcases Relation.ReflTransGen.cases_head h₂ with heq | ⟨y, hstep', hrest'⟩
    · obtain rfl := heq
      obtain ⟨rt, idx⟩ := a
      obtain rfl : idx = none := hf₂
      have hc : c = { rt := rt, index := none } := by
        have h2 := (stepFn_none_fix P rt).symm.trans hstep
        simpa using h2.symm
      rw [hc] at hrest
      exact Steps_none_eq rfl hrest
    · have hcy : c = y := by
        have h2 := hstep.symm.trans hstep'
        simpa using h2
      exact ih s₂ (hcy ▸ hrest') hf₂

/-- C1: for every program and every input, driving the step driver
(`StepRunner`) to completion produces the same final runtime state — in
particular the same memory contents and the same output bytes — as
run-to-completion execution (`Runner::run`, or equivalently the free function
`runtime::run`) of the same program on the same input; moreover the completed
drive is the only one, since stepping is deterministic. -/
theorem C1_step_driver_refines_run (P : List Instruction) (rt rt' : Runtime)
    (h : (∃ fuel, runnerRunList fuel rt P = some (.ok rt')) ∨
         (∃ fuel, runtimeRunList fuel rt P = some (.ok rt'))) :
    Steps P { rt := rt, index := first_index P } { rt := rt', index := none } ∧
    (∀ s, Steps P { rt := rt, index := first_index P } s → s.index = none →
      s = { rt := rt', index := none }) := by
  have hexec : ExecList rt P rt' := by
    rcases h with ⟨fuel, h⟩ | ⟨fuel, h⟩
    · exact (runnerGo_sound fuel rt).2 P rt' h
    · exact (runtimeGo_sound fuel rt).1 P rt' h
  have hsteps := ExecList_steps_top hexec
  exact ⟨hsteps, fun s hs hf => (steps_deterministic hsteps rfl s hs hf).symm⟩

/-- Witness for C1 at a concrete program and input. -/
theorem C1_step_driver_refines_run_witness :
    (runnerRunList 20 (Runtime.new [] .RightInfinite) [.DAdd 2, .UntilZero [.DAdd (-1)]] =
      some (.ok { input := [], output := [],
                  memory := { size := .RightInfinite, right_data := [0], left_data := [] },
                  pointer := 0 })) ∧
    Steps [.DAdd 2, .UntilZero [.DAdd (-1)]]
      { rt := Runtime.new [] .RightInfinite,
        index := first_index [.DAdd 2, .UntilZero [.DAdd (-1)]] }
      { rt := { input := [], output := [],
                memory := { size := .RightInfinite, right_data := [0], left_data := [] },
                pointer := 0 },
        index := none } :=
  ⟨rfl,
    (C1_step_driver_refines_run [.DAdd 2, .UntilZero [.DAdd (-1)]]
      (Runtime.new [] .RightInfinite)
      { input := [], output := [],
        memory := { size := .RightInfinite, right_data := [0], left_data := [] },
        pointer := 0 }
      (Or.inl ⟨20, by rfl⟩)).1⟩

/-- `wrapping_add` in `isize` followed by `as u8` only depends on the value
mod 256, since 256 divides 2^64. -/
theorem u8OfInt_wrapIsize (x : Int) : u8OfInt (wrapIsize x) = (x % 256).toNat := by
  unfold u8OfInt wrapIsize
  congr 1
  rw [Int.emod_def (x + 2 ^ 63) (2 ^ 64)]
  have h : x + 2 ^ 63 - 2 ^ 64 * ((x + 2 ^ 63) / 2 ^ 64) - 2 ^ 63
      = x + 256 * (-(2 ^ 56 * ((x + 2 ^ 63) / 2 ^ 64))) := by ring
  rw [h, Int.add_mul_emod_self_left]

/-- C9: executing `DAdd d` changes the byte at the current pointer to the old
value plus `d` modulo 256 (8-bit wraparound), for every signed `d` and every
current byte value; and (Scenario C) the program `[Input, DAdd 3, Output]` run
with input byte 254 outputs exactly the byte 1. -/
theorem C9_dadd_wraparound (rt : Runtime) (d : Int) (m : Memory) (v : Nat)
    (hget : rt.memory.get_mut rt.pointer = .ok (m, v)) :
    rt.add_data d =
      .ok { rt with memory := m.store rt.pointer ((((v : Int) + d) % 256).toNat) } ∧
    (runnerRunList 10 (Runtime.new [254] (.Fixed 1)) [.Input, .DAdd 3, .Output]).map
        (Except.map Runtime.output) = some (.ok [1]) := by
  refine ⟨?_, rfl⟩
  simp only [Runtime.add_data, hget, u8OfInt_wrapIsize]

/-- Witness for C9: on a fresh one-cell memory holding 0, `DAdd 300` stores
`(0 + 300) % 256 = 44`. -/
theorem C9_dadd_wraparound_witness :
    ((Runtime.new [5] (.Fixed 1)).memory.get_mut (Runtime.new [5] (.Fixed 1)).pointer =
      .ok ({ size := .Fixed 1, right_data := [0], left_data := [] }, 0)) ∧
    (Runtime.new [5] (.Fixed 1)).add_data 300 =
      .ok { input := [5], output := [],
            memory := { size := .Fixed 1, right_data := [44], left_data := [] },
            pointer := 0 } :=
  ⟨by rfl,
    by
      have h := (C9_dadd_wraparound (Runtime.new [5] (.Fixed 1)) 300
        { size := .Fixed 1, right_data := [0], left_data := [] } 0 (by rfl)).1
      simpa using h⟩

/-- C2 (amended): when an `Input` instruction finds the input exhausted, the
internal `Runtime` — hence `Runner::run` and the step driver — fails with
`Eof`, distinct from the generic I/O failure; the older free-function
`runtime::run`, however, reads via `read_exact` and surfaces exhausted input
as the generic I/O failure instead. -/
theorem C2_input_eof (rt : Runtime) (m : Memory) (v : Nat)
    (hget : rt.memory.get_mut rt.pointer = .ok (m, v)) (hin : rt.input = []) :
    rt.exec_one .Input = .error .Eof ∧
    (∀ fuel, runnerRunOne (fuel + 1) rt .Input = some (.error .Eof)) ∧
    (∀ (P : List Instruction) (idx : List Nat), instruction_at P idx = some .Input →
      stepFn P { rt := rt, index := some idx } = some (.error .Eof)) ∧
    rt.input_exact = .error .IoError := by
  have hop : rt.inputOp = .error .Eof := by
    unfold Runtime.inputOp
    rw [hget, hin]
  have hexec : rt.exec_one .Input = .error .Eof := by
    unfold Runtime.exec_one
    rw [hop]
  refine ⟨hexec, ?_, ?_, ?_⟩
  · intro fuel
    unfold runnerRunOne runnerGo
    rw [hexec]
  · intro P idx hat
    simp only [stepFn, hat, hexec]
  · unfold Runtime.input_exact
    rw [hget, hin]

/-- Witness for C2 at a concrete runtime with exhausted input. -/
theorem C2_input_eof_witness :
    ((Runtime.new [] (.Fixed 1)).memory.get_mut (Runtime.new [] (.Fixed 1)).pointer =
      .ok ({ size := .Fixed 1, right_data := [0], left_data := [] }, 0)) ∧
    (Runtime.new [] (.Fixed 1)).input = [] ∧
    (Runtime.new [] (.Fixed 1)).exec_one .Input = .error .Eof ∧
    (Runtime.new [] (.Fixed 1)).input_exact = .error .IoError := by
  have h := C2_input_eof (Runtime.new [] (.Fixed 1))
    { size := .Fixed 1, right_data := [0], left_data := [] } 0 (by rfl) rfl
  exact ⟨by rfl, rfl, h.1, h.2.2.2⟩

/-- C2 counterexample: the free-function entry point `runtime::run`
(src/runtime/mod.rs) reports exhausted input on `[Input]` as the generic I/O
failure, not as the `Eof` failure the claim asserts for every
run-to-completion entry point. -/
theorem C2_counterexample :
    runtimeRunList 2 (Runtime.new [] (.Fixed 1)) [.Input] = some (.error .IoError) ∧
    (RuntimeError.IoError ≠ RuntimeError.Eof) :=
  ⟨rfl, by decide⟩

/-- C6 (amended): dispatch of the step driver.  With the current index
`q ++ [i]` addressing `inst` inside the loop body `body`: on `StepIn` with a
non-empty body the driver enters the body's first instruction; on `Next` it
advances to the next sibling, or pops to the enclosing loop (the path
becoming absent when at top level); but on `StepIn` with an *empty* body the
driver leaves the path unchanged — the loop instruction will be executed
again — rather than advancing as the specification asserts. -/
theorem C6_step_driver_dispatch (P : List Instruction) (q : List Nat)
    (body : List Instruction) (i : Nat) (inst : Instruction) (rt : Runtime)
    (hctx : Ctx P q body) (hbi : body[i]? = some inst) :
    (∀ rt' sub, rt.exec_one inst = .ok (rt', .StepIn sub) → sub ≠ [] →
      stepFn P { rt := rt, index := some (q ++ [i]) } =
        some (.ok { rt := rt', index := some ((q ++ [i]) ++ [0]) })) ∧
    (∀ rt', rt.exec_one inst = .ok (rt', .Next) →
      stepFn P { rt := rt, index := some (q ++ [i]) } =
        some (.ok { rt := rt',
                    index := (if i + 1 < body.length then some (q ++ [i + 1])
                              else if q = [] then none else some q) })) ∧
    (∀ rt', rt.exec_one inst = .ok (rt', .StepIn []) →
      stepFn P { rt := rt, index := some (q ++ [i]) } =
        some (.ok { rt := rt', index := some (q ++ [i]) })) := by
  refine ⟨?_, ?_, ?_⟩
  · intro rt' sub hexec hne
    exact stepFn_stepin hctx hbi hexec hne
  · intro rt' hexec
    by_cases hc : i + 1 < body.length
    · rw [if_pos hc]
      exact stepFn_next_adv hctx hbi hexec hc
    · rw [if_neg hc]
      exact stepFn_next_out hctx hbi hexec hc
  · intro rt' hexec
    exact stepFn_stepin_empty hctx hbi hexec

/-- Witness for C6: on `[DAdd 1, UntilZero [Output]]` the step at the first
instruction signals `Next` and the driver advances the path to `[1]`. -/
theorem C6_step_driver_dispatch_witness :
    ([Instruction.DAdd 1, .UntilZero [.Output]][0]? = some (.DAdd 1)) ∧
    stepFn [.DAdd 1, .UntilZero [.Output]]
      { rt := Runtime.new [] .RightInfinite, index := some [0] } =
      some (.ok { rt := { input := [], output := [],
                          memory := { size := .RightInfinite, right_data := [1], left_data := [] },
                          pointer := 0 },
                  index := some [1] }) := by
  have h := (C6_step_driver_dispatch [.DAdd 1, .UntilZero [.Output]] []
    [.DAdd 1, .UntilZero [.Output]] 0 (.DAdd 1) (Runtime.new [] .RightInfinite)
    (Ctx.top _) (by rfl)).2.1
    { input := [], output := [],
      memory := { size := .RightInfinite, right_data := [1], left_data := [] },
      pointer := 0 } (by rfl)
  refine ⟨by rfl, ?_⟩
  simpa using h

/-- C6 counterexample: on `[DAdd 1, UntilZero []]`, with the cell nonzero, the
step at the loop instruction signals `StepIn []`; the claim then demands the
driver advance — and, there being no further sibling or level, mark the
program finished (index absent) — but the driver leaves the index at `[1]`
and the program still running. -/
theorem C6_counterexample :
    stepFn [.DAdd 1, .UntilZero []]
      { rt := { input := [], output := [],
                memory := { size := .RightInfinite, right_data := [1], left_data := [] },
                pointer := 0 },
        index := some [1] } =
      some (.ok { rt := { input := [], output := [],
                          memory := { size := .RightInfinite, right_data := [1], left_data := [] },
                          pointer := 0 },
                  index := some [1] }) ∧
    (some [1] ≠ (none : Option (List Nat))) :=
  ⟨rfl, by decide⟩

/-- C10: a `StepRunner` whose program has finished (the current index is
absent, `is_running()` false) is a fixed point of `step()`: every further
call succeeds and leaves the runtime — pointer, memory and output stream —
and the index unchanged. -/
theorem C10_step_finished_frame (P : List Instruction) (s : MState)
    (h : s.index = none) : stepFn P s = some (.ok s) := by
  obtain ⟨rt, idx⟩ := s
  obtain rfl : idx = none := h
  rfl

/-- Witness for C10 on a concrete finished runner. -/
theorem C10_step_finished_frame_witness :
    (MState.index { rt := Runtime.new [] DEFAULT_MEMSIZE, index := none } = none) ∧
    stepFn [.Output] { rt := Runtime.new [] DEFAULT_MEMSIZE, index := none } =
      some (.ok { rt := Runtime.new [] DEFAULT_MEMSIZE, index := none }) :=
  ⟨rfl, C10_step_finished_frame [.Output] _ rfl⟩

/-- The well-formedness invariant of a runtime memory: a `Fixed` memory keeps
exactly its declared length (it is never resized) and, like `RightInfinite`,
has no negative-address buffer. -/
def Memory.wf (m : Memory) : Prop :=
  match m.size with
  | .Fixed n => m.right_data.length = n ∧ m.left_data = []
  | .RightInfinite => m.left_data = []
  | .BothInfinite => True

/-- What reading address `a` yields: the stored byte, or 0 for any cell never
touched (cells auto-extend zero-filled). -/
def Memory.peek (m : Memory) (address : Int) : Nat :=
  if 0 ≤ address then m.right_data.getD address.toNat 0
  else m.left_data.getD (-(address + 1)).toNat 0

/-- Extending a buffer with zero-filled cells does not change any read:
absent cells already read as zero. -/
theorem getD_append_replicate_zero (l : List Nat) (k j : Nat) :
    (l ++ List.replicate k 0).getD j 0 = l.getD j 0 := by
  rcases Nat.lt_or_ge j l.length with hj | hj
  · rw [List.getD_eq_getElem?_getD, List.getD_eq_getElem?_getD, List.getElem?_append_left hj]
  · rw [List.getD_eq_getElem?_getD, List.getD_eq_getElem?_getD,
      List.getElem?_append_right hj, List.getElem?_eq_none hj, List.getElem?_replicate]
    split <;> rfl

/-- `Vec::resize` in the growing direction appends zero-filled cells. -/
theorem vecResize_grow {l : List Nat} {n : Nat} (h : l.length ≤ n) :
    vecResize l n 0 = l ++ List.replicate (n - l.length) 0 := by
  unfold vecResize
  rw [List.take_of_length_le h]

/-- C4: memory access dispatch.  Under `Fixed n` the access at `a` succeeds
iff `0 ≤ a < n` (without touching the buffers) and otherwise fails with
`OutOfMemoryBounds a`; under `RightInfinite` a negative `a` fails with
`OutOfMemoryBounds a` and `a ≥ 0` succeeds, auto-extending with zero-filled
cells (no read changes); under `BothInfinite` every `a` succeeds the same
way.  In particular (Scenario D) `[PAdd (-1), DAdd 1]` under the default
`Fixed 30000` policy fails with `OutOfMemoryBounds (-1)` and under
`BothInfinite` succeeds. -/
theorem C4_memory_bounds (m : Memory) (a : Int) (hwf : m.wf) :
    (∀ n, m.size = .Fixed n →
      (if 0 ≤ a ∧ a < (n : Int) then m.get_mut a = .ok (m, m.peek a)
       else m.get_mut a = .error (.OutOfMemoryBounds a))) ∧
    (m.size = .RightInfinite →
      (if 0 ≤ a then
        ∃ m', m.get_mut a = .ok (m', m.peek a) ∧ m'.wf ∧ m'.size = m.size ∧
          ∀ b : Int, m'.peek b = m.peek b
       else m.get_mut a = .error (.OutOfMemoryBounds a))) ∧
    (m.size = .BothInfinite →
      ∃ m', m.get_mut a = .ok (m', m.peek a) ∧ m'.wf ∧ m'.size = m.size ∧
        ∀ b : Int, m'.peek b = m.peek b) ∧
    (runnerRunList 10 (Runtime.new [] DEFAULT_MEMSIZE) [.PAdd (-1), .DAdd 1] =
      some (.error (.OutOfMemoryBounds (-1)))) ∧
    (runnerRunList 10 (Runtime.new [] .BothInfinite) [.PAdd (-1), .DAdd 1] =
      some (.ok { input := [], output := [],
                  memory := { size := .BothInfinite, right_data := [], left_data := [1] },
                  pointer := -1 })) := by
  refine ⟨?_, ?_, ?_, rfl, rfl⟩
  · -- Fixed n
    intro n hsize
    simp only [Memory.wf, hsize] at hwf
    obtain ⟨hlen, -⟩ := hwf
    by_cases hin : 0 ≤ a ∧ a < (n : Int)
    · rw [if_pos hin]
      obtain ⟨ha0, han⟩ := hin
      have hidx : ¬ m.right_data.length ≤ a.toNat := by
        rw [hlen]; omega
      simp only [Memory.get_mut, Memory.peek, if_pos ha0, if_neg hidx]
    · rw [if_neg hin]
      rcases Int.lt_or_le a 0 with ha | ha0
      · simp only [Memory.get_mut, hsize]
        rw [if_neg (by omega)]
      · have han : (n : Int) ≤ a := by omega
        have hidx : m.right_data.length ≤ a.toNat := by rw [hlen]; omega
        simp only [Memory.get_mut, hsize, if_pos ha0, if_pos hidx]
  · -- RightInfinite
    intro hsize
    simp only [Memory.wf, hsize] at hwf
    by_cases ha0 : 0 ≤ a
    · rw [if_pos ha0]
      by_cases hidx : m.right_data.length ≤ a.toNat
      · refine ⟨{ m with right_data := vecResize m.right_data (a.toNat + 1) 0 }, ?_, ?_, by simp, ?_⟩
        · simp only [Memory.get_mut, hsize, if_pos ha0, if_pos hidx]
          rw [vecResize_grow (by omega), getD_append_replicate_zero,
            Memory.peek, if_pos ha0]
        · simp only [Memory.wf, hsize]
          exact hwf
        · intro b
          simp only [Memory.peek]
          by_cases hb : 0 ≤ b
          · rw [if_pos hb, if_pos hb, vecResize_grow (by omega),
              getD_append_replicate_zero]
          · rw [if_neg hb, if_neg hb]
      · refine ⟨m, ?_, by simp only [Memory.wf, hsize]; exact hwf, rfl, fun b => rfl⟩
        simp only [Memory.get_mut, Memory.peek, if_pos ha0, if_neg hidx]
    · rw [if_neg ha0]
      simp only [Memory.get_mut, hsize]
      rw [if_neg (by omega)]
  · -- BothInfinite
    intro hsize
    by_cases ha0 : 0 ≤ a
    · by_cases hidx : m.right_data.length ≤ a.toNat
      · refine ⟨{ m with right_data := vecResize m.right_data (a.toNat + 1) 0 }, ?_, ?_, by simp, ?_⟩
        · simp only [Memory.get_mut, hsize, if_pos ha0, if_pos hidx]
          rw [vecResize_grow (by omega), getD_append_replicate_zero,
            Memory.peek, if_pos ha0]
        · simp only [Memory.wf, hsize]
        · intro b
          simp only [Memory.peek]
          by_cases hb : 0 ≤ b
          · rw [if_pos hb, if_pos hb, vecResize_grow (by omega),
              getD_append_replicate_zero]
          · rw [if_neg hb, if_neg hb]
      · refine ⟨m, ?_, by simp only [Memory.wf, hsize], rfl, fun b => rfl⟩
        simp only [Memory.get_mut, Memory.peek, if_pos ha0, if_neg hidx]
    · by_cases hidx : m.left_data.length ≤ (-(a + 1)).toNat
      · refine ⟨{ m with left_data := vecResize m.left_data ((-(a + 1)).toNat + 1) 0 }, ?_, ?_, by simp, ?_⟩
        · simp only [Memory.get_mut, hsize, if_neg ha0]
          rw [if_pos hidx, vecResize_grow (by omega), getD_append_replicate_zero,
            Memory.peek, if_neg ha0]
        · simp only [Memory.wf, hsize]
        · intro b
          simp only [Memory.peek]
          by_cases hb : 0 ≤ b
          · rw [if_pos hb, if_pos hb]
          · rw [if_neg hb, if_neg hb, vecResize_grow (by omega),
              getD_append_replicate_zero]
      · refine ⟨m, ?_, by simp only [Memory.wf, hsize], rfl, fun b => rfl⟩
        simp only [Memory.get_mut, Memory.peek, hsize, if_neg ha0, if_neg hidx]

/-- Witness for C4 on a fresh `RightInfinite` memory at address 0. -/
theorem C4_memory_bounds_witness :
    (Memory.new .RightInfinite).wf ∧
    (∃ m', (Memory.new .RightInfinite).get_mut 0 =
        .ok (m', (Memory.new .RightInfinite).peek 0) ∧ m'.wf ∧
        m'.size = (Memory.new .RightInfinite).size ∧
        ∀ b : Int, m'.peek b = (Memory.new .RightInfinite).peek b) := by
  have hwf : (Memory.new .RightInfinite).wf := by simp [Memory.new, Memory.wf]
  have h := (C4_memory_bounds (Memory.new .RightInfinite) 0 hwf).2.1 rfl
  rw [if_pos (by norm_num)] at h
  exact ⟨hwf, h⟩

/-- `token::TokenType` (src/token/mod.rs). -/
inductive TokenType where
  | PInc
  | PDec
  | DInc
  | DDec
  | Output
  | Input
  | LoopHead
  | LoopTail
deriving DecidableEq

/-- `token::Token` (src/token/mod.rs). -/
structure Token where
  token_type : TokenType
  token_str : String
deriving DecidableEq

/-- `token::TokenInfo` (src/token/mod.rs): `token = none` is the EOF marker,
`pos_in_chars` the char-offset position. -/
structure TokenInfo where
  token : Option Token
  pos_in_chars : Nat
deriving DecidableEq

def TokenInfo.token_type (i : TokenInfo) : Option TokenType :=
  i.token.map Token.token_type

/-- `error::ParseError` (src/error/mod.rs). -/
inductive ParseError where
  | UnexpectedEndOfFile (pos_in_chars : Nat)
  | UnexpectedEndOfLoop (pos_in_chars : Nat)
  | MiscError (pos_in_chars : Nat) (message : String)
deriving DecidableEq

/-- A token stream as the parser sees it: the tokens still to be read and the
end-of-stream position.  `ParseContext`'s one-token unget buffer is modelled
by consing the token back onto the stream (`next_token_info` drains the
buffer first, so buffer-then-stream and cons are observationally the same). -/
structure TStream where
  tokens : List TokenInfo
  eofPos : Nat
deriving DecidableEq

/-- `ParseContext::next_token_info`: the next token, or the EOF marker. -/
def TStream.nextInfo (s : TStream) : TokenInfo × TStream :=
  match s.tokens with
  | [] => ({ token := none, pos_in_chars := s.eofPos }, s)
  | t :: ts => (t, { s with tokens := ts })

/-- The token-consuming loop of `Parser::push_xadd` (src/parser/mod.rs):
consume `inc`/`dec` tokens while they last, tally the operand, and unget the
first non-matching token (or the EOF). -/
def push_xadd_toks (inc dec : TokenType) : Int → List TokenInfo → Int × List TokenInfo
  | operand, [] => (operand, [])
  | operand, t :: ts =>
    if t.token_type = some inc then push_xadd_toks inc dec (operand + 1) ts
    else if t.token_type = some dec then push_xadd_toks inc dec (operand - 1) ts
    else (operand, t :: ts)

/-- `Parser::parse_internal` (src/parser/mod.rs), fuelled.  The Rust loop
that appends to a `Vec` is rendered as recursion that conses the instruction
parsed from the current token onto the instructions parsed from the rest;
`push_xadd` appends `PAdd`/`DAdd` only when the folded operand is nonzero. -/
def parseI : Nat → TStream → Bool → Option (Except ParseError (List Instruction × TStream))
  | 0, _, _ => none
  | fuel + 1, s, top_level =>
    let (info, s₁) := s.nextInfo
    match info.token_type with
    | some .PInc =>
      let (operand, rest) := push_xadd_toks .PInc .PDec 1 s₁.tokens
      match parseI fuel { s₁ with tokens := rest } top_level with
      | none => none
      | some (.error e) => some (.error e)
      | some (.ok (l, s₂)) =>
        some (.ok ((if operand = 0 then l else .PAdd operand :: l), s₂))
    | some .PDec =>
      let (operand, rest) := push_xadd_toks .PInc .PDec (-1) s₁.tokens
      match parseI fuel { s₁ with tokens := rest } top_level with
      | none => none
      | some (.error e) => some (.error e)
      | some (.ok (l, s₂)) =>
        some (.ok ((if operand = 0 then l else .PAdd operand :: l), s₂))
    | some .DInc =>
      let (operand, rest) := push_xadd_toks .DInc .DDec 1 s₁.tokens
      match parseI fuel { s₁ with tokens := rest } top_level with
      | none => none
      | some (.error e) => some (.error e)
      | some (.ok (l, s₂)) =>
        some (.ok ((if operand = 0 then l else .DAdd operand :: l), s₂))
    | some .DDec =>
      let (operand, rest) := push_xadd_toks .DInc .DDec (-1) s₁.tokens
      match parseI fuel { s₁ with tokens := rest } top_level with
      | none => none
      | some (.error e) => some (.error e)
      | some (.ok (l, s₂)) =>
        some (.ok ((if operand = 0 then l else .DAdd operand :: l), s₂))
    | some .Output =>
      match parseI fuel s₁ top_level with
      | none => none
      | some (.error e) => some (.error e)
      | some (.ok (l, s₂)) => some (.ok (.Output :: l, s₂))
    | some .Input =>
      match parseI fuel s₁ top_level with
      | none => none
      | some (.error e) => some (.error e)
      | some (.ok (l, s₂)) => some (.ok (.Input :: l, s₂))
    | some .LoopHead =>
      match parseI fuel s₁ false with
      | none => none
      | some (.error e) => some (.error e)
      | some (.ok (sub, s₂)) =>
        match parseI fuel s₂ top_level with
        | none => none
        | some (.error e) => some (.error e)
        | some (.ok (l, s₃)) => some (.ok (.UntilZero sub :: l, s₃))
    | some .LoopTail =>
      if top_level then some (.error (.UnexpectedEndOfLoop info.pos_in_chars))
      else some (.ok ([], s₁))
    | none =>
      if top_level then some (.ok ([], s₁))
      else some (.error (.UnexpectedEndOfFile info.pos_in_chars))

-- Sanity: the stream of src/parser/mod.rs test_parse_str parses to
-- [PAdd (-1), DAdd 1, UntilZero [Input, Output]].
example :
    parseI 20
      { tokens := [
          { token := some { token_type := .PInc, token_str := ">" }, pos_in_chars := 0 },
          { token := some { token_type := .PDec, token_str := "<" }, pos_in_chars := 1 },
          { token := some { token_type := .PDec, token_str := "<" }, pos_in_chars := 2 },
          { token := some { token_type := .DInc, token_str := "+" }, pos_in_chars := 3 },
          { token := some { token_type := .DDec, token_str := "-" }, pos_in_chars := 5 },
          { token := some { token_type := .DInc, token_str := "+" }, pos_in_chars := 7 },
          { token := some { token_type := .LoopHead, token_str := "[" }, pos_in_chars := 11 },
          { token := some { token_type := .Input, token_str := "," }, pos_in_chars := 13 },
          { token := some { token_type := .Output, token_str := "." }, pos_in_chars := 17 },
          { token := some { token_type := .PDec, token_str := ">" }, pos_in_chars := 19 },
          { token := some { token_type := .PInc, token_str := "<" }, pos_in_chars := 23 },
          { token := some { token_type := .DDec, token_str := "+" }, pos_in_chars := 29 },
          { token := some { token_type := .DInc, token_str := "-" }, pos_in_chars := 31 },
          { token := some { token_type := .LoopTail, token_str := "]" }, pos_in_chars := 37 }],
        eofPos := 41 } true =
    some (.ok ([.PAdd (-1), .DAdd 1, .UntilZero [.Input, .Output]],
      { tokens := [], eofPos := 41 })) := rfl

mutual
/-- `program::FatInstruction` (src/program/mod.rs): an instruction kind plus
the source tokens that contributed to it. -/
inductive FatInstruction where
  | mk (kind : FatInstructionKind) (tokens : List TokenInfo)

/-- `program::FatInstructionKind` (src/program/mod.rs). -/
inductive FatInstructionKind where
  | PAdd (operand : Int)
  | DAdd (operand : Int)
  | Output
  | Input
  | UntilZero (sub : List FatInstruction)
  | Nop
end

def FatInstruction.kind : FatInstruction → FatInstructionKind
  | .mk k _ => k

def FatInstruction.tokens : FatInstruction → List TokenInfo
  | .mk _ t => t

mutual
/-- `FatInstructionKind::as_instruction` (src/program/mod.rs). -/
def FatInstructionKind.as_instruction : FatInstructionKind → Option Instruction
  | .PAdd n => some (.PAdd n)
  | .DAdd n => some (.DAdd n)
  | .Output => some .Output
  | .Input => some .Input
  | .UntilZero sub => some (.UntilZero (fat_instructions_to_instructins sub))
  | .Nop => none

/-- `fat_instructions_to_instructins` (src/program/mod.rs; the source spells
it that way): `filter_map` over `as_instruction`. -/
def fat_instructions_to_instructins : List FatInstruction → List Instruction
  | [] => []
  | .mk k _ :: rest =>
    match k.as_instruction with
    | some i => i :: fat_instructions_to_instructins rest
    | none => fat_instructions_to_instructins rest
end

/-- `FatProgram::as_program` (src/program/mod.rs). -/
def FatProgram.as_program (p : List FatInstruction) : List Instruction :=
  fat_instructions_to_instructins p

example :
    FatProgram.as_program
      [.mk (.PAdd 1) [], .mk .Nop [], .mk (.UntilZero [.mk .Nop [], .mk .Input []]) []] =
    [.PAdd 1, .UntilZero [.Input]] := rfl

/-- The token-consuming loop of `Parser::push_xadd_fat` (src/parser/mod.rs):
like `push_xadd_toks` but also collecting the consumed tokens in order. -/
def push_xadd_fat_toks (inc dec : TokenType) :
    Int → List TokenInfo → Int × List TokenInfo × List TokenInfo
  | operand, [] => (operand, [], [])
  | operand, t :: ts =>
    if t.token_type = some inc then
      let r := push_xadd_fat_toks inc dec (operand + 1) ts
      (r.1, t :: r.2.1, r.2.2)
    else if t.token_type = some dec then
      let r := push_xadd_fat_toks inc dec (operand - 1) ts
      (r.1, t :: r.2.1, r.2.2)
    else (operand, [], t :: ts)

/-- `Parser::parse_internal_fat` (src/parser/mod.rs), fuelled, returning the
fat instructions, the `last_token` of `ParsedFatValue` (the closing
`LoopTail`, or `none` at end of stream) and the remaining stream.  The
`unreachable!("last token must be present")` in the `LoopHead` arm is
modelled by `none`. -/
def parseFatI : Nat → TStream → Bool →
    Option (Except ParseError (List FatInstruction × Option TokenInfo × TStream))
  | 0, _, _ => none
  | fuel + 1, s, top_level =>
    let (info, s₁) := s.nextInfo
    match info.token_type with
    | some .PInc =>
      let r := push_xadd_fat_toks .PInc .PDec 1 s₁.tokens
      match parseFatI fuel { s₁ with tokens := r.2.2 } top_level with
      | none => none
      | some (.error e) => some (.error e)
      | some (.ok (l, last, s₂)) =>
        some (.ok (.mk (if r.1 = 0 then .Nop else .PAdd r.1) (info :: r.2.1) :: l, last, s₂))
    | some .PDec =>
      let r := push_xadd_fat_toks .PInc .PDec (-1) s₁.tokens
      match parseFatI fuel { s₁ with tokens := r.2.2 } top_level with
      | none => none
      | some (.error e) => some (.error e)
      | some (.ok (l, last, s₂)) =>
        some (.ok (.mk (if r.1 = 0 then .Nop else .PAdd r.1) (info :: r.2.1) :: l, last, s₂))
    | some .DInc =>
      let r := push_xadd_fat_toks .DInc .DDec 1 s₁.tokens
      match parseFatI fuel { s₁ with tokens := r.2.2 } top_level with
      | none => none
      | some (.error e) => some (.error e)
      | some (.ok (l, last, s₂)) =>
        some (.ok (.mk (if r.1 = 0 then .Nop else .DAdd r.1) (info :: r.2.1) :: l, last, s₂))
    | some .DDec =>
      let r := push_xadd_fat_toks .DInc .DDec (-1) s₁.tokens
      match parseFatI fuel { s₁ with tokens := r.2.2 } top_level with
      | none => none
      | some (.error e) => some (.error e)
      | some (.ok (l, last, s₂)) =>
        some (.ok (.mk (if r.1 = 0 then .Nop else .DAdd r.1) (info :: r.2.1) :: l, last, s₂))
    | some .Output =>
      match parseFatI fuel s₁ top_level with
      | none => none
      | some (.error e) => some (.error e)
      | some (.ok (l, last, s₂)) => some (.ok (.mk .Output [info] :: l, last, s₂))
    | some .Input =>
      match parseFatI fuel s₁ top_level with
      | none => none
      | some (.error e) => some (.error e)
      | some (.ok (l, last, s₂)) => some (.ok (.mk .Input [info] :: l, last, s₂))
    | some .LoopHead =>
      match parseFatI fuel s₁ false with
      | none => none
      | some (.error e) => some (.error e)
      | some (.ok (sub, lastSub, s₂)) =>
        match lastSub with
        | none => none
        | some lastTok =>
          match parseFatI fuel s₂ top_level with
          | none => none
          | some (.error e) => some (.error e)
          | some (.ok (l, last, s₃)) =>
            some (.ok (.mk (.UntilZero sub)
              (info :: ((sub.map FatInstruction.tokens).flatten ++ [lastTok])) :: l,
              last, s₃))
    | some .LoopTail =>
      if top_level then some (.error (.UnexpectedEndOfLoop info.pos_in_chars))
      else some (.ok ([], some info, s₁))
    | none =>
      if top_level then some (.ok ([], none, s₁))
      else some (.error (.UnexpectedEndOfFile info.pos_in_chars))

/-- `Parser::parse_str_fat` (src/parser/mod.rs): top-level fat parse; the
`assert!(last_token.is_none())` is modelled by `none` on violation. -/
def parseStrFat (fuel : Nat) (s : TStream) : Option (Except ParseError (List FatInstruction)) :=
  match parseFatI fuel s true with
  | none => none
  | some (.error e) => some (.error e)
  | some (.ok (l, none, _)) => some (.ok l)
  | some (.ok (_, some _, _)) => none

/-- `Parser::parse_str` (src/parser/mod.rs): top-level plain parse. -/
def parseStr (fuel : Nat) (s : TStream) : Option (Except ParseError (List Instruction)) :=
  match parseI fuel s true with
  | none => none
  | some (.error e) => some (.error e)
  | some (.ok (l, _)) => some (.ok l)

/-- The algebraic sum of the +1 and -1 contributions of a same-axis token run. -/
def axisDelta (inc : TokenType) : List TokenInfo → Int
  | [] => 0
  | t :: ts => (if t.token_type = some inc then 1 else -1) + axisDelta inc ts

/-- Folding a maximal same-axis run: the `push_xadd` loop consumes exactly
the run, adds its algebraic sum to the running operand, and ungets the first
non-matching token. -/
theorem push_xadd_toks_run (inc dec : TokenType) :
    ∀ (run rest : List TokenInfo) (operand : Int),
      (∀ t ∈ run, t.token_type = some inc ∨ t.token_type = some dec) →
      (∀ t, rest.head? = some t → ¬(t.token_type = some inc ∨ t.token_type = some dec)) →
      push_xadd_toks inc dec operand (run ++ rest) =
        (operand + axisDelta inc run, rest) := by
  intro run
  induction run with
  | nil =>
    intro rest operand _ hmax
    cases rest with
    | nil => simp [push_xadd_toks, axisDelta]
    | cons t ts =>
      have h := hmax t rfl
      push_neg at h
      simp [push_xadd_toks, axisDelta, h.1, h.2]
  | cons t run' ih =>
    intro rest operand hall hmax
    rcases hall t (by simp) with ht | ht
    · have hsum : axisDelta inc (t :: run') = 1 + axisDelta inc run' := by
        simp [axisDelta, ht]
      rw [List.cons_append, push_xadd_toks, if_pos ht,
        ih rest (operand + 1) (fun u hu => hall u (by simp [hu])) hmax, hsum]
      ring_nf
    · by_cases heq : t.token_type = some inc
      · have hsum : axisDelta inc (t :: run') = 1 + axisDelta inc run' := by
          simp [axisDelta, heq]
        rw [List.cons_append, push_xadd_toks, if_pos heq,
          ih rest (operand + 1) (fun u hu => hall u (by simp [hu])) hmax, hsum]
        ring_nf
      · have hsum : axisDelta inc (t :: run') = -1 + axisDelta inc run' := by
          simp [axisDelta, heq]
        rw [List.cons_append, push_xadd_toks, if_neg heq, if_pos ht,
          ih rest (operand - 1) (fun u hu => hall u (by simp [hu])) hmax, hsum]
        ring_nf

/-- Fat variant of the run-folding lemma: same operand and remaining stream,
and the consumed run is collected in order. -/
theorem push_xadd_fat_toks_run (inc dec : TokenType) :
    ∀ (run rest : List TokenInfo) (operand : Int),
      (∀ t ∈ run, t.token_type = some inc ∨ t.token_type = some dec) →
      (∀ t, rest.head? = some t → ¬(t.token_type = some inc ∨ t.token_type = some dec)) →
      push_xadd_fat_toks inc dec operand (run ++ rest) =
        (operand + axisDelta inc run, run, rest) := by
  intro run
  induction run with
  | nil =>
    intro rest operand _ hmax
    cases rest with
    | nil => simp [push_xadd_fat_toks, axisDelta]
    | cons t ts =>
      have h := hmax t rfl
      push_neg at h
      simp [push_xadd_fat_toks, axisDelta, h.1, h.2]
  | cons t run' ih =>
    intro rest operand hall hmax
    by_cases heq : t.token_type = some inc
    · have hsum : axisDelta inc (t :: run') = 1 + axisDelta inc run' := by
        simp [axisDelta, heq]
      rw [List.cons_append, push_xadd_fat_toks, if_pos heq,
        ih rest (operand + 1) (fun u hu => hall u (by simp [hu])) hmax, hsum]
      simp only [Prod.mk.injEq, and_true]
      ring
    · rcases hall t (by simp) with ht | ht
      · exact absurd ht heq
      · have hsum : axisDelta inc (t :: run') = -1 + axisDelta inc run' := by
          simp [axisDelta, heq]
        rw [List.cons_append, push_xadd_fat_toks, if_neg heq, if_pos ht,
          ih rest (operand - 1) (fun u hu => hall u (by simp [hu])) hmax, hsum]
        simp only [Prod.mk.injEq, and_true]
        ring

mutual
/-- Every `PAdd`/`DAdd` in a list of instructions (recursively through loop
bodies) carries a non-zero delta. -/
def nonzeroDeltas : List Instruction → Bool
  | [] => true
  | i :: rest => nonzeroDelta1 i && nonzeroDeltas rest

/-- The non-zero delta invariant for a single instruction. -/
def nonzeroDelta1 : Instruction → Bool
  | .PAdd d => decide (d ≠ 0)
  | .DAdd d => decide (d ≠ 0)
  | .Output => true
  | .Input => true
  | .UntilZero sub => nonzeroDeltas sub
end

/-- Every successfully parsed instruction list satisfies the non-zero delta
invariant: zero-sum runs are folded away entirely. -/
theorem parseI_nonzeroDeltas :
    ∀ (fuel : Nat) (s : TStream) (top : Bool) (l : List Instruction) (s' : TStream),
      parseI fuel s top = some (.ok (l, s')) → nonzeroDeltas l = true := by
  intro fuel
  induction fuel with
  | zero => intro s top l s' h; simp [parseI] at h
  | succ fuel ih =>
    intro s top l s' h
    obtain ⟨toks, e⟩ := s
    cases toks with
    | nil =>
      cases top with
      | true =>
        have h2 := h
        simp [parseI, TStream.nextInfo, TokenInfo.token_type] at h2
        obtain rfl := h2.1
        rfl
      | false => simp [parseI, TStream.nextInfo, TokenInfo.token_type] at h
    | cons t ts =>
      simp only [parseI, TStream.nextInfo] at h
      cases htt : t.token_type with
      | none =>
        rw [htt] at h
        cases top with
        | true =>
          have h2 := h
          simp at h2
          obtain rfl := h2.1
          rfl
        | false => simp at h
      | some tt =>
        rw [htt] at h
        cases tt with
        | PInc =>
          rcases hpx : push_xadd_toks .PInc .PDec 1 ts with ⟨op, rest⟩
          simp only [hpx] at h
          cases hrec : parseI fuel { tokens := rest, eofPos := e } top with
          | none => simp [hrec] at h
          | some res =>
            cases res with
            | error er => simp [hrec] at h
            | ok pr =>
              obtain ⟨l₀, s₂⟩ := pr
              simp only [hrec, Option.some.injEq, Except.ok.injEq, Prod.mk.injEq] at h
              obtain ⟨h1, -⟩ := h
              subst h1
              by_cases hop : op = 0 <;>
                simp [nonzeroDeltas, nonzeroDelta1, hop, ih _ _ _ _ hrec]
        | PDec =>
          rcases hpx : push_xadd_toks .PInc .PDec (-1) ts with ⟨op, rest⟩
          simp only [hpx] at h
          cases hrec : parseI fuel { tokens := rest, eofPos := e } top with
          | none => simp [hrec] at h
          | some res =>
            cases res with
            | error er => simp [hrec] at h
            | ok pr =>
              obtain ⟨l₀, s₂⟩ := pr
              simp only [hrec, Option.some.injEq, Except.ok.injEq, Prod.mk.injEq] at h
              obtain ⟨h1, -⟩ := h
              subst h1
              by_cases hop : op = 0 <;>
                simp [nonzeroDeltas, nonzeroDelta1, hop, ih _ _ _ _ hrec]
        | DInc =>
          rcases hpx : push_xadd_toks .DInc .DDec 1 ts with ⟨op, rest⟩
          simp only [hpx] at h
          cases hrec : parseI fuel { tokens := rest, eofPos := e } top with
          | none => simp [hrec] at h
          | some res =>
            cases res with
            | error er => simp [hrec] at h
            | ok pr =>
              obtain ⟨l₀, s₂⟩ := pr
              simp only [hrec, Option.some.injEq, Except.ok.injEq, Prod.mk.injEq] at h
              obtain ⟨h1, -⟩ := h
              subst h1
              by_cases hop : op = 0 <;>
                simp [nonzeroDeltas, nonzeroDelta1, hop, ih _ _ _ _ hrec]
        | DDec =>
          rcases hpx : push_xadd_toks .DInc .DDec (-1) ts with ⟨op, rest⟩
          simp only [hpx] at h
          cases hrec : parseI fuel { tokens := rest, eofPos := e } top with
          | none => simp [hrec] at h
          | some res =>
            cases res with
            | error er => simp [hrec] at h
            | ok pr =>
              obtain ⟨l₀, s₂⟩ := pr
              simp only [hrec, Option.some.injEq, Except.ok.injEq, Prod.mk.injEq] at h
              obtain ⟨h1, -⟩ := h
              subst h1
              by_cases hop : op = 0 <;>
                simp [nonzeroDeltas, nonzeroDelta1, hop, ih _ _ _ _ hrec]
        | Output =>
          cases hrec : parseI fuel { tokens := ts, eofPos := e } top with
          | none => simp [hrec] at h
          | some res =>
            cases res with
            | error er => simp [hrec] at h
            | ok pr =>
              obtain ⟨l₀, s₂⟩ := pr
              simp only [hrec, Option.some.injEq, Except.ok.injEq, Prod.mk.injEq] at h
              obtain ⟨h1, -⟩ := h
              subst h1
              simp [nonzeroDeltas, nonzeroDelta1, ih _ _ _ _ hrec]
        | Input =>
          cases hrec : parseI fuel { tokens := ts, eofPos := e } top with
          | none => simp [hrec] at h
          | some res =>
            cases res with
            | error er => simp [hrec] at h
            | ok pr =>
              obtain ⟨l₀, s₂⟩ := pr
              simp only [hrec, Option.some.injEq, Except.ok.injEq, Prod.mk.injEq] at h
              obtain ⟨h1, -⟩ := h
              subst h1
              simp [nonzeroDeltas, nonzeroDelta1, ih _ _ _ _ hrec]
        | LoopHead =>
          cases hrec1 : parseI fuel { tokens := ts, eofPos := e } false with
          | none => simp [hrec1] at h
          | some res1 =>
            cases res1 with
            | error er => simp [hrec1] at h
            | ok pr1 =>
              obtain ⟨sub, s₂⟩ := pr1
              simp only [hrec1] at h
              cases hrec2 : parseI fuel s₂ top with
              | none => simp [hrec2] at h
              | some res2 =>
                cases res2 with
                | error er => simp [hrec2] at h
                | ok pr2 =>
                  obtain ⟨l₀, s₃⟩ := pr2
                  simp only [hrec2, Option.some.injEq, Except.ok.injEq, Prod.mk.injEq] at h
                  obtain ⟨h1, -⟩ := h
                  subst h1
                  simp [nonzeroDeltas, nonzeroDelta1, ih _ _ _ _ hrec1, ih _ _ _ _ hrec2]
        | LoopTail =>
          cases top with
          | true => simp at h
          | false =>
            have h2 := h
            simp at h2
            obtain rfl := h2.1
            rfl

theorem parseI_fold_pointer (fuel e : Nat) (run rest : List TokenInfo) (top : Bool)
    (hne : run ≠ [])
    (hall : ∀ t ∈ run, t.token_type = some .PInc ∨ t.token_type = some .PDec)
    (hmax : ∀ t, rest.head? = some t →
      ¬(t.token_type = some .PInc ∨ t.token_type = some .PDec)) :
    parseI (fuel + 1) { tokens := run ++ rest, eofPos := e } top =
      (match parseI fuel { tokens := rest, eofPos := e } top with
       | none => none
       | some (.error er) => some (.error er)
       | some (.ok (l, s₂)) =>
         some (.ok ((if axisDelta .PInc run = 0 then l
                     else .PAdd (axisDelta .PInc run) :: l), s₂))) := by
  cases run with
  | nil => exact absurd rfl hne
  | cons t run' =>
    have hall' : ∀ u ∈ run', u.token_type = some .PInc ∨ u.token_type = some .PDec :=
      fun u hu => hall u (by simp [hu])
    rcases hall t (by simp) with ht | ht
    · have hfold := push_xadd_toks_run .PInc .PDec run' rest 1 hall' hmax
      have hdelta : 1 + axisDelta .PInc run' = axisDelta .PInc (t :: run') := by
        simp [axisDelta, ht]
      simp only [parseI, TStream.nextInfo, List.cons_append, ht, hfold, hdelta]
    · have hfold := push_xadd_toks_run .PInc .PDec run' rest (-1) hall' hmax
      have hdelta : -1 + axisDelta .PInc run' = axisDelta .PInc (t :: run') := by
        have : ¬ t.token_type = some TokenType.PInc := by simp [ht]
        simp [axisDelta, this]
      simp only [parseI, TStream.nextInfo, List.cons_append, ht, hfold, hdelta]

theorem parseI_fold_data (fuel e : Nat) (run rest : List TokenInfo) (top : Bool)
    (hne : run ≠ [])
    (hall : ∀ t ∈ run, t.token_type = some .DInc ∨ t.token_type = some .DDec)
    (hmax : ∀ t, rest.head? = some t →
      ¬(t.token_type = some .DInc ∨ t.token_type = some .DDec)) :
    parseI (fuel + 1) { tokens := run ++ rest, eofPos := e } top =
      (match parseI fuel { tokens := rest, eofPos := e } top with
       | none => none
       | some (.error er) => some (.error er)
       | some (.ok (l, s₂)) =>
         some (.ok ((if axisDelta .DInc run = 0 then l
                     else .DAdd (axisDelta .DInc run) :: l), s₂))) := by
  cases run with
  | nil => exact absurd rfl hne
  | cons t run' =>
    have hall' : ∀ u ∈ run', u.token_type = some .DInc ∨ u.token_type = some .DDec :=
      fun u hu => hall u (by simp [hu])
    rcases hall t (by simp) with ht | ht
    · have hfold := push_xadd_toks_run .DInc .DDec run' rest 1 hall' hmax
      have hdelta : 1 + axisDelta .DInc run' = axisDelta .DInc (t :: run') := by
        simp [axisDelta, ht]
      simp only [parseI, TStream.nextInfo, List.cons_append, ht, hfold, hdelta]
    · have hfold := push_xadd_toks_run .DInc .DDec run' rest (-1) hall' hmax
      have hdelta : -1 + axisDelta .DInc run' = axisDelta .DInc (t :: run') := by
        have : ¬ t.token_type = some TokenType.DInc := by simp [ht]
        simp [axisDelta, this]
      simp only [parseI, TStream.nextInfo, List.cons_append, ht, hfold, hdelta]

theorem parseFatI_fold_pointer (fuel e : Nat) (run rest : List TokenInfo) (top : Bool)
    (hne : run ≠ [])
    (hall : ∀ t ∈ run, t.token_type = some .PInc ∨ t.token_type = some .PDec)
    (hmax : ∀ t, rest.head? = some t →
      ¬(t.token_type = some .PInc ∨ t.token_type = some .PDec)) :
    parseFatI (fuel + 1) { tokens := run ++ rest, eofPos := e } top =
      (match parseFatI fuel { tokens := rest, eofPos := e } top with
       | none => none
       | some (.error er) => some (.error er)
       | some (.ok (l, last, s₂)) =>
         some (.ok (.mk (if axisDelta .PInc run = 0 then .Nop
                         else .PAdd (axisDelta .PInc run)) run :: l, last, s₂))) := by
  cases run with
  | nil => exact absurd rfl hne
  | cons t run' =>
    have hall' : ∀ u ∈ run', u.token_type = some .PInc ∨ u.token_type = some .PDec :=
      fun u hu => hall u (by simp [hu])
    rcases hall t (by simp) with ht | ht
    · have hfold := push_xadd_fat_toks_run .PInc .PDec run' rest 1 hall' hmax
      have hdelta : 1 + axisDelta .PInc run' = axisDelta .PInc (t :: run') := by
        simp [axisDelta, ht]
      simp only [parseFatI, TStream.nextInfo, List.cons_append, ht, hfold, hdelta]
    · have hfold := push_xadd_fat_toks_run .PInc .PDec run' rest (-1) hall' hmax
      have hdelta : -1 + axisDelta .PInc run' = axisDelta .PInc (t :: run') := by
        have : ¬ t.token_type = some TokenType.PInc := by simp [ht]
        simp [axisDelta, this]
      simp only [parseFatI, TStream.nextInfo, List.cons_append, ht, hfold, hdelta]

theorem parseFatI_fold_data (fuel e : Nat) (run rest : List TokenInfo) (top : Bool)
    (hne : run ≠ [])
    (hall : ∀ t ∈ run, t.token_type = some .DInc ∨ t.token_type = some .DDec)
    (hmax : ∀ t, rest.head? = some t →
      ¬(t.token_type = some .DInc ∨ t.token_type = some .DDec)) :
    parseFatI (fuel + 1) { tokens := run ++ rest, eofPos := e } top =
      (match parseFatI fuel { tokens := rest, eofPos := e } top with
       | none => none
       | some (.error er) => some (.error er)
       | some (.ok (l, last, s₂)) =>
         some (.ok (.mk (if axisDelta .DInc run = 0 then .Nop
                         else .DAdd (axisDelta .DInc run)) run :: l, last, s₂))) := by
  cases run with
  | nil => exact absurd rfl hne
  | cons t run' =>
    have hall' : ∀ u ∈ run', u.token_type = some .DInc ∨ u.token_type = some .DDec :=
      fun u hu => hall u (by simp [hu])
    rcases hall t (by simp) with ht | ht
    · have hfold := push_xadd_fat_toks_run .DInc .DDec run' rest 1 hall' hmax
      have hdelta : 1 + axisDelta .DInc run' = axisDelta .DInc (t :: run') := by
        simp [axisDelta, ht]
      simp only [parseFatI, TStream.nextInfo, List.cons_append, ht, hfold, hdelta]
    · have hfold := push_xadd_fat_toks_run .DInc .DDec run' rest (-1) hall' hmax
      have hdelta : -1 + axisDelta .DInc run' = axisDelta .DInc (t :: run') := by
        have : ¬ t.token_type = some TokenType.DInc := by simp [ht]
        simp [axisDelta, this]
      simp only [parseFatI, TStream.nextInfo, List.cons_append, ht, hfold, hdelta]

/-- Shorthand for a concrete token. -/
def tokOf (tt : TokenType) (st : String) (p : Nat) : TokenInfo :=
  { token := some { token_type := tt, token_str := st }, pos_in_chars := p }

/-- C3: a maximal run of same-axis increment/decrement tokens parses to
exactly one `PAdd`/`DAdd` carrying the algebraic sum — to no instruction at
all in the plain tree when the sum is zero, and to exactly one explicit `Nop`
(carrying the run's tokens) in the annotated tree; consequently every
`PAdd`/`DAdd` in a parsed program has a non-zero delta. -/
theorem C3_run_folding :
    (∀ (fuel e : Nat) (run rest : List TokenInfo) (top : Bool),
      run ≠ [] →
      (∀ t ∈ run, t.token_type = some .PInc ∨ t.token_type = some .PDec) →
      (∀ t, rest.head? = some t →
        ¬(t.token_type = some .PInc ∨ t.token_type = some .PDec)) →
      parseI (fuel + 1) { tokens := run ++ rest, eofPos := e } top =
        (match parseI fuel { tokens := rest, eofPos := e } top with
         | none => none
         | some (.error er) => some (.error er)
         | some (.ok (l, s₂)) =>
           some (.ok ((if axisDelta .PInc run = 0 then l
                       else .PAdd (axisDelta .PInc run) :: l), s₂)))) ∧
    (∀ (fuel e : Nat) (run rest : List TokenInfo) (top : Bool),
      run ≠ [] →
      (∀ t ∈ run, t.token_type = some .DInc ∨ t.token_type = some .DDec) →
      (∀ t, rest.head? = some t →
        ¬(t.token_type = some .DInc ∨ t.token_type = some .DDec)) →
      parseI (fuel + 1) { tokens := run ++ rest, eofPos := e } top =
        (match parseI fuel { tokens := rest, eofPos := e } top with
         | none => none
         | some (.error er) => some (.error er)
         | some (.ok (l, s₂)) =>
           some (.ok ((if axisDelta .DInc run = 0 then l
                       else .DAdd (axisDelta .DInc run) :: l), s₂)))) ∧
    (∀ (fuel e : Nat) (run rest : List TokenInfo) (top : Bool),
      run ≠ [] →
      (∀ t ∈ run, t.token_type = some .PInc ∨ t.token_type = some .PDec) →
      (∀ t, rest.head? = some t →
        ¬(t.token_type = some .PInc ∨ t.token_type = some .PDec)) →
      parseFatI (fuel + 1) { tokens := run ++ rest, eofPos := e } top =
        (match parseFatI fuel { tokens := rest, eofPos := e } top with
         | none => none
         | some (.error er) => some (.error er)
         | some (.ok (l, last, s₂)) =>
           some (.ok (.mk (if axisDelta .PInc run = 0 then .Nop
                           else .PAdd (axisDelta .PInc run)) run :: l, last, s₂)))) ∧
    (∀ (fuel e : Nat) (run rest : List TokenInfo) (top : Bool),
      run ≠ [] →
      (∀ t ∈ run, t.token_type = some .DInc ∨ t.token_type = some .DDec) →
      (∀ t, rest.head? = some t →
        ¬(t.token_type = some .DInc ∨ t.token_type = some .DDec)) →
      parseFatI (fuel + 1) { tokens := run ++ rest, eofPos := e } top =
        (match parseFatI fuel { tokens := rest, eofPos := e } top with
         | none => none
         | some (.error er) => some (.error er)
         | some (.ok (l, last, s₂)) =>
           some (.ok (.mk (if axisDelta .DInc run = 0 then .Nop
                           else .DAdd (axisDelta .DInc run)) run :: l, last, s₂)))) ∧
    (∀ (fuel : Nat) (s : TStream) (top : Bool) (l : List Instruction) (s' : TStream),
      parseI fuel s top = some (.ok (l, s')) → nonzeroDeltas l = true) :=
  ⟨parseI_fold_pointer, parseI_fold_data, parseFatI_fold_pointer, parseFatI_fold_data,
    parseI_nonzeroDeltas⟩

/-- Witness for C3: the zero-sum pointer run `> <` followed by `.` folds to
no instruction at all. -/
theorem C3_run_folding_witness :
    ([tokOf .PInc ">" 0, tokOf .PDec "<" 1] ≠ ([] : List TokenInfo)) ∧
    parseI 6 { tokens := [tokOf .PInc ">" 0, tokOf .PDec "<" 1] ++ [tokOf .Output "." 2],
               eofPos := 3 } true =
      (match parseI 5 { tokens := [tokOf .Output "." 2], eofPos := 3 } true with
       | none => none
       | some (.error er) => some (.error er)
       | some (.ok (l, s₂)) =>
         some (.ok ((if axisDelta .PInc [tokOf .PInc ">" 0, tokOf .PDec "<" 1] = 0 then l
                     else .PAdd (axisDelta .PInc [tokOf .PInc ">" 0, tokOf .PDec "<" 1]) :: l),
           s₂))) ∧
    parseI 6 { tokens := [tokOf .PInc ">" 0, tokOf .PDec "<" 1] ++ [tokOf .Output "." 2],
               eofPos := 3 } true =
      some (.ok ([.Output], { tokens := [], eofPos := 3 })) :=
  ⟨by decide,
    C3_run_folding.1 5 3 [tokOf .PInc ">" 0, tokOf .PDec "<" 1] [tokOf .Output "." 2] true
      (by decide) (by decide)
      (by
        intro t ht
        simp only [List.head?_cons, Option.some.injEq] at ht
        subst ht
        decide),
    by rfl⟩

/-- C7: a `LoopTail` token read at top level fails with `UnexpectedEndOfLoop`
at that token's char position; end-of-stream inside a loop fails with
`UnexpectedEndOfFile` at the end-of-stream position; end-of-stream at top
level returns the accumulated program successfully. -/
theorem C7_parse_termination (fuel : Nat) (s : TStream) :
    (∀ t ts, s.tokens = t :: ts → t.token_type = some .LoopTail →
      parseI (fuel + 1) s true = some (.error (.UnexpectedEndOfLoop t.pos_in_chars))) ∧
    (s.tokens = [] →
      parseI (fuel + 1) s false = some (.error (.UnexpectedEndOfFile s.eofPos)) ∧
      parseI (fuel + 1) s true = some (.ok ([], s))) := by
  obtain ⟨toks, e⟩ := s
  constructor
  · intro t ts htoks htt
    subst htoks
    simp [parseI, TStream.nextInfo, htt]
  · intro htoks
    subst htoks
    exact ⟨by simp [parseI, TStream.nextInfo, TokenInfo.token_type],
      by simp [parseI, TStream.nextInfo, TokenInfo.token_type]⟩

/-- Witness for C7 on concrete streams. -/
theorem C7_parse_termination_witness :
    parseI 1 { tokens := [tokOf .LoopTail "]" 1], eofPos := 2 } true =
      some (.error (.UnexpectedEndOfLoop 1)) ∧
    parseI 1 { tokens := [], eofPos := 7 } false =
      some (.error (.UnexpectedEndOfFile 7)) ∧
    parseI 1 { tokens := [], eofPos := 7 } true =
      some (.ok ([], { tokens := [], eofPos := 7 })) :=
  ⟨(C7_parse_termination 0 _).1 (tokOf .LoopTail "]" 1) [] rfl rfl,
    ((C7_parse_termination 0 _).2 rfl).1,
    ((C7_parse_termination 0 _).2 rfl).2⟩

/-- The fat and plain `push_xadd` loops compute the same operand and leave
the same remaining tokens. -/
theorem push_xadd_fat_toks_eq (inc dec : TokenType) :
    ∀ (operand : Int) (ts : List TokenInfo),
      (push_xadd_fat_toks inc dec operand ts).1 = (push_xadd_toks inc dec operand ts).1 ∧
      (push_xadd_fat_toks inc dec operand ts).2.2 = (push_xadd_toks inc dec operand ts).2 := by
  intro operand ts
  induction ts generalizing operand with
  | nil => simp [push_xadd_fat_toks, push_xadd_toks]
  | cons t ts ih =>
    simp only [push_xadd_fat_toks, push_xadd_toks]
    by_cases h1 : t.token_type = some inc
    · simp only [if_pos h1]
      simpa using ih (operand + 1)
    · by_cases h2 : t.token_type = some dec
      · simp only [if_neg h1, if_pos h2]
        simpa using ih (operand - 1)
      · simp only [if_neg h1, if_neg h2]
        simp

/-- The relation between a fat parse result and a plain parse result of the
same stream: out of fuel together, the same error, or the same remaining
stream with the fat instructions converting to the plain ones (and, below
top level, a closing token always present). -/
def FatPlainRel :
    Option (Except ParseError (List FatInstruction × Option TokenInfo × TStream)) →
    Option (Except ParseError (List Instruction × TStream)) → Bool → Prop
  | none, none, _ => True
  | some (.error e₁), some (.error e₂), _ => e₁ = e₂
  | some (.ok (fl, last, s₁)), some (.ok (pl, s₂)), top =>
      fat_instructions_to_instructins fl = pl ∧ s₁ = s₂ ∧ (top = false → last.isSome)
  | _, _, _ => False

/-- Consing one fat instruction onto a fat parse result. -/
def fatCons (k : FatInstructionKind) (tokens : List TokenInfo) :
    Option (Except ParseError (List FatInstruction × Option TokenInfo × TStream)) →
    Option (Except ParseError (List FatInstruction × Option TokenInfo × TStream))
  | none => none
  | some (.error e) => some (.error e)
  | some (.ok (l, last, s₂)) => some (.ok (.mk k tokens :: l, last, s₂))

/-- Consing one plain instruction onto a plain parse result. -/
def plainCons (i : Instruction) :
    Option (Except ParseError (List Instruction × TStream)) →
    Option (Except ParseError (List Instruction × TStream))
  | none => none
  | some (.error e) => some (.error e)
  | some (.ok (l, s₂)) => some (.ok (i :: l, s₂))

theorem FatPlainRel_cons {F P top} (k : FatInstructionKind) (tokens : List TokenInfo)
    (i : Instruction) (hk : k.as_instruction = some i) (h : FatPlainRel F P top) :
    FatPlainRel (fatCons k tokens F) (plainCons i P) top := by
  cases F with
  | none =>
    cases P with
    | none => simp [fatCons, plainCons, FatPlainRel]
    | some rp => cases rp with
      | error ep => simp [FatPlainRel] at h
      | ok prp => simp [FatPlainRel] at h
  | some rf =>
    cases rf with
    | error ef =>
      cases P with
      | none => simp [FatPlainRel] at h
      | some rp => cases rp with
        | error ep => simpa [fatCons, plainCons, FatPlainRel] using h
        | ok prp => simp [FatPlainRel] at h
    | ok prf =>
      cases P with
      | none => simp [FatPlainRel] at h
      | some rp => cases rp with
        | error ep => simp [FatPlainRel] at h
        | ok prp =>
          obtain ⟨fl, last, s₁⟩ := prf
          obtain ⟨pl, s₂⟩ := prp
          obtain ⟨hconv, hs, hlast⟩ := h
          refine ⟨?_, hs, hlast⟩
          cases k <;> simp_all [fat_instructions_to_instructins, FatInstructionKind.as_instruction]

theorem FatPlainRel_cons_nop {F P top} (tokens : List TokenInfo)
    (h : FatPlainRel F P top) :
    FatPlainRel (fatCons .Nop tokens F) P top := by
  cases F with
  | none =>
    cases P with
    | none => simp [fatCons, FatPlainRel]
    | some rp => cases rp with
      | error ep => simp [FatPlainRel] at h
      | ok prp => simp [FatPlainRel] at h
  | some rf =>
    cases rf with
    | error ef =>
      cases P with
      | none => simp [FatPlainRel] at h
      | some rp => cases rp with
        | error ep => simpa [fatCons, FatPlainRel] using h
        | ok prp => simp [FatPlainRel] at h
    | ok prf =>
      cases P with
      | none => simp [FatPlainRel] at h
      | some rp => cases rp with
        | error ep => simp [FatPlainRel] at h
        | ok prp =>
          obtain ⟨fl, last, s₁⟩ := prf
          obtain ⟨pl, s₂⟩ := prp
          obtain ⟨hconv, hs, hlast⟩ := h
          exact ⟨by simpa [fat_instructions_to_instructins, FatInstructionKind.as_instruction]
            using hconv, hs, hlast⟩

/-- The error-and-ok-preserving identity match used by the parser arms. -/
theorem plainMatchId (X : Option (Except ParseError (List Instruction × TStream))) :
    (match X with
     | none => none
     | some (.error e) => some (.error e)
     | some (.ok (l, s₂)) => some (.ok (l, s₂))) = X := by
  cases X with
  | none => rfl
  | some r =>
    cases r with
    | error e => rfl
    | ok pr => cases pr; rfl

/-- The annotated parse and the plain parse of the same token stream agree
step for step: same fuel exhaustion, same errors, same remaining stream, and
the fat instructions convert (dropping `Nop`s) to exactly the plain ones. -/
theorem parseFatI_corr : ∀ (fuel : Nat) (s : TStream) (top : Bool),
    FatPlainRel (parseFatI fuel s top) (parseI fuel s top) top := by
  intro fuel
  induction fuel with
  | zero => intro s top; simp [parseFatI, parseI, FatPlainRel]
  | succ fuel ih =>
    intro s top
    obtain ⟨toks, e⟩ := s
    cases toks with
    | nil =>
      cases top with
      | true =>
        simp [parseFatI, parseI, TStream.nextInfo, TokenInfo.token_type, FatPlainRel,
          fat_instructions_to_instructins]
      | false =>
        simp [parseFatI, parseI, TStream.nextInfo, TokenInfo.token_type, FatPlainRel]
    | cons t ts =>
      simp only [parseFatI, parseI, TStream.nextInfo]
      cases htt : t.token_type with
      | none =>
        cases top with
        | true => simp [FatPlainRel, fat_instructions_to_instructins]
        | false => simp [FatPlainRel]
      | some tt =>
        cases tt with
        | PInc =>
          obtain ⟨heq1, heq2⟩ := push_xadd_fat_toks_eq .PInc .PDec 1 ts
          rcases hpx : push_xadd_toks .PInc .PDec 1 ts with ⟨op, rest⟩
          simp only [hpx] at heq1 heq2
          simp only [hpx, heq1, heq2]
          by_cases hop : op = 0
          · simp only [if_pos hop]
            rw [plainMatchId]
            exact FatPlainRel_cons_nop _ (ih { tokens := rest, eofPos := e } top)
          · simp only [if_neg hop]
            exact FatPlainRel_cons _ _ _ rfl (ih { tokens := rest, eofPos := e } top)
        | PDec =>
          obtain ⟨heq1, heq2⟩ := push_xadd_fat_toks_eq .PInc .PDec (-1) ts
          rcases hpx : push_xadd_toks .PInc .PDec (-1) ts with ⟨op, rest⟩
          simp only [hpx] at heq1 heq2
          simp only [hpx, heq1, heq2]
          by_cases hop : op = 0
          · simp only [if_pos hop]
            rw [plainMatchId]
            exact FatPlainRel_cons_nop _ (ih { tokens := rest, eofPos := e } top)
          · simp only [if_neg hop]
            exact FatPlainRel_cons _ _ _ rfl (ih { tokens := rest, eofPos := e } top)
        | DInc =>
          obtain ⟨heq1, heq2⟩ := push_xadd_fat_toks_eq .DInc .DDec 1 ts
          rcases hpx : push_xadd_toks .DInc .DDec 1 ts with ⟨op, rest⟩
          simp only [hpx] at heq1 heq2
          simp only [hpx, heq1, heq2]
          by_cases hop : op = 0
          · simp only [if_pos hop]
            rw [plainMatchId]
            exact FatPlainRel_cons_nop _ (ih { tokens := rest, eofPos := e } top)
          · simp only [if_neg hop]
            exact FatPlainRel_cons _ _ _ rfl (ih { tokens := rest, eofPos := e } top)
        | DDec =>
          obtain ⟨heq1, heq2⟩ := push_xadd_fat_toks_eq .DInc .DDec (-1) ts
          rcases hpx : push_xadd_toks .DInc .DDec (-1) ts with ⟨op, rest⟩
          simp only [hpx] at heq1 heq2
          simp only [hpx, heq1, heq2]
          by_cases hop : op = 0
          · simp only [if_pos hop]
            rw [plainMatchId]
            exact FatPlainRel_cons_nop _ (ih { tokens := rest, eofPos := e } top)
          · simp only [if_neg hop]
            exact FatPlainRel_cons _ _ _ rfl (ih { tokens := rest, eofPos := e } top)
        | Output =>
          exact FatPlainRel_cons _ _ _ rfl (ih { tokens := ts, eofPos := e } top)
        | Input =>
          exact FatPlainRel_cons _ _ _ rfl (ih { tokens := ts, eofPos := e } top)
        | LoopHead =>
          have hIH1 := ih { tokens := ts, eofPos := e } false
          cases hf1 : parseFatI fuel { tokens := ts, eofPos := e } false with
          | none =>
            cases hp1 : parseI fuel { tokens := ts, eofPos := e } false with
            | none => simp [hf1, hp1, FatPlainRel]
            | some rp =>
              rw [hf1, hp1] at hIH1
              cases rp with
              | error ep => simp [FatPlainRel] at hIH1
              | ok prp => simp [FatPlainRel] at hIH1
          | some rf =>
            cases rf with
            | error ef =>
              cases hp1 : parseI fuel { tokens := ts, eofPos := e } false with
              | none => rw [hf1, hp1] at hIH1; simp [FatPlainRel] at hIH1
              | some rp =>
                rw [hf1, hp1] at hIH1
                cases rp with
                | error ep =>
                  obtain rfl : ef = ep := hIH1
                  simp [hf1, hp1, FatPlainRel]
                | ok prp => simp [FatPlainRel] at hIH1
            | ok prf =>
              cases hp1 : parseI fuel { tokens := ts, eofPos := e } false with
              | none => rw [hf1, hp1] at hIH1; simp [FatPlainRel] at hIH1
              | some rp =>
                rw [hf1, hp1] at hIH1
                cases rp with
                | error ep => simp [FatPlainRel] at hIH1
                | ok prp =>
                  obtain ⟨sub, lastSub, s₂⟩ := prf
                  obtain ⟨subP, s₂P⟩ := prp
                  obtain ⟨hconv, hs, hlast⟩ := hIH1
                  subst hconv
                  subst hs
                  obtain ⟨lastTok, rfl⟩ := Option.isSome_iff_exists.mp (hlast rfl)
                  simp only [hf1, hp1]
                  exact FatPlainRel_cons _ _ _ rfl (ih s₂ top)
        | LoopTail =>
          cases top with
          | true => simp [FatPlainRel]
          | false => simp [FatPlainRel, fat_instructions_to_instructins]

/-- C8: for every source that parses successfully, the annotated tree
converted to a plain program (dropping `Nop`s, recursively converting loop
bodies) equals the plain tree parsed directly from the same source; hence
running the converted program through the `Runtime` on any input produces a
byte-identical result — in particular byte-identical output — to running the
directly parsed plain tree. -/
theorem C8_fat_plain_roundtrip (fuel : Nat) (s : TStream)
    (F : List FatInstruction) (P : List Instruction)
    (hF : parseStrFat fuel s = some (.ok F)) (hP : parseStr fuel s = some (.ok P)) :
    FatProgram.as_program F = P ∧
    ∀ (rfuel : Nat) (input : List Nat) (memsize : MemorySize),
      runnerRunList rfuel (Runtime.new input memsize) (FatProgram.as_program F) =
        runnerRunList rfuel (Runtime.new input memsize) P := by
  have hcorr := parseFatI_corr fuel s true
  unfold parseStrFat at hF
  unfold parseStr at hP
  cases hf : parseFatI fuel s true with
  | none => rw [hf] at hF; simp at hF
  | some rf =>
    cases rf with
    | error ef => rw [hf] at hF; simp at hF
    | ok prf =>
      obtain ⟨fl, last, s₁⟩ := prf
      cases last with
      | some l0 => rw [hf] at hF; simp at hF
      | none =>
        rw [hf] at hF
        obtain rfl : fl = F := by simpa using hF
        cases hp : parseI fuel s true with
        | none => rw [hp] at hP; simp at hP
        | some rp =>
          cases rp with
          | error ep => rw [hp] at hP; simp at hP
          | ok prp =>
            obtain ⟨pl, s₂⟩ := prp
            rw [hp] at hP
            obtain rfl : pl = P := by simpa using hP
            rw [hf, hp] at hcorr
            obtain ⟨hconv, -, -⟩ := hcorr
            exact ⟨hconv, fun rfuel input memsize => by
              simp only [FatProgram.as_program, hconv]⟩

/-- Witness for C8 on the token stream of the source `+[-]`. -/
theorem C8_fat_plain_roundtrip_witness :
    parseStrFat 10 { tokens := [tokOf .DInc "+" 0, tokOf .LoopHead "[" 1,
        tokOf .DDec "-" 2, tokOf .LoopTail "]" 3], eofPos := 4 } =
      some (.ok [.mk (.DAdd 1) [tokOf .DInc "+" 0],
        .mk (.UntilZero [.mk (.DAdd (-1)) [tokOf .DDec "-" 2]])
          [tokOf .LoopHead "[" 1, tokOf .DDec "-" 2, tokOf .LoopTail "]" 3]]) ∧
    parseStr 10 { tokens := [tokOf .DInc "+" 0, tokOf .LoopHead "[" 1,
        tokOf .DDec "-" 2, tokOf .LoopTail "]" 3], eofPos := 4 } =
      some (.ok [.DAdd 1, .UntilZero [.DAdd (-1)]]) ∧
    FatProgram.as_program [.mk (.DAdd 1) [tokOf .DInc "+" 0],
        .mk (.UntilZero [.mk (.DAdd (-1)) [tokOf .DDec "-" 2]])
          [tokOf .LoopHead "[" 1, tokOf .DDec "-" 2, tokOf .LoopTail "]" 3]] =
      [.DAdd 1, .UntilZero [.DAdd (-1)]] :=
  ⟨by rfl, by rfl,
    (C8_fat_plain_roundtrip 10
      { tokens := [tokOf .DInc "+" 0, tokOf .LoopHead "[" 1,
          tokOf .DDec "-" 2, tokOf .LoopTail "]" 3], eofPos := 4 }
      [.mk (.DAdd 1) [tokOf .DInc "+" 0],
        .mk (.UntilZero [.mk (.DAdd (-1)) [tokOf .DDec "-" 2]])
          [tokOf .LoopHead "[" 1, tokOf .DDec "-" 2, tokOf .LoopTail "]" 3]]
      [.DAdd 1, .UntilZero [.DAdd (-1)]] (by rfl) (by rfl)).1⟩

/-- `token::simple::SimpleTokenDef` (src/token/simple/mod.rs): symbol text
(as a char list), its precomputed char count, and the token type. -/
structure SimpleTokenDef where
  token : List Char
  char_count : Nat
  token_type : TokenType
deriving DecidableEq

/-- `SimpleTokenDef::new`. -/
def SimpleTokenDef.new (token : List Char) (tt : TokenType) : SimpleTokenDef :=
  { token := token, char_count := token.length, token_type := tt }

/-- `token::simple::SimpleTokenSpec` (src/token/simple/mod.rs), the eight
symbols already converted to text. -/
structure SimpleTokenSpec where
  ptr_inc : List Char
  ptr_dec : List Char
  data_inc : List Char
  data_dec : List Char
  output : List Char
  input : List Char
  loop_head : List Char
  loop_tail : List Char
deriving DecidableEq

/-- Insert into a list sorted by descending `char_count`, after all entries
of equal or larger count (preserving their relative order). -/
def insertDescending (d : SimpleTokenDef) : List SimpleTokenDef → List SimpleTokenDef
  | [] => [d]
  | x :: xs =>
    if x.char_count ≤ d.char_count then d :: x :: xs
    else x :: insertDescending d xs

/-- The Rust table sort `sort_by_key(|def| usize::MAX - def.char_count)`: a
stable sort by descending char count.  A stable sort's result is the unique
sorted permutation preserving the relative order of equal keys, so this
insertion sort computes exactly it. -/
def sortDescending : List SimpleTokenDef → List SimpleTokenDef
  | [] => []
  | x :: xs => insertDescending x (sortDescending xs)

/-- `SimpleTokenSpec::to_tokenizer` (src/token/simple/mod.rs): build the
eight-entry table in declaration order and sort it by descending char
count. -/
def SimpleTokenSpec.to_tokenizer (spec : SimpleTokenSpec) : List SimpleTokenDef :=
  sortDescending
    [SimpleTokenDef.new spec.ptr_inc .PInc,
     SimpleTokenDef.new spec.ptr_dec .PDec,
     SimpleTokenDef.new spec.data_inc .DInc,
     SimpleTokenDef.new spec.data_dec .DDec,
     SimpleTokenDef.new spec.output .Output,
     SimpleTokenDef.new spec.input .Input,
     SimpleTokenDef.new spec.loop_head .LoopHead,
     SimpleTokenDef.new spec.loop_tail .LoopTail]

/-- `find_token_at` (src/token/simple/mod.rs): first table entry whose symbol
is a prefix of the remaining source (the remaining source is passed directly
instead of source plus byte position). -/
def find_token_at (src_head : List Char) (token_table : List SimpleTokenDef) :
    Option SimpleTokenDef :=
  token_table.find? (fun d => d.token.isPrefixOf src_head)

/-- `SimpleTokenStream::next` (src/token/simple/mod.rs): scan forward one
scalar at a time, emitting the first table match (symbol text, advancing past
it) or the EOF marker; state is the remaining source suffix plus the char
position. -/
def simple_next (table : List SimpleTokenDef) : List Char → Nat → TokenInfo × List Char × Nat
  | [], pos => ({ token := none, pos_in_chars := pos }, [], pos)
  | c :: rest, pos =>
    match find_token_at (c :: rest) table with
    | some d =>
      ({ token := some { token_type := d.token_type,
                         token_str := String.mk ((c :: rest).take d.token.length) },
         pos_in_chars := pos },
       (c :: rest).drop d.token.length, pos + d.char_count)
    | none => simple_next table rest (pos + 1)

theorem mem_insertDescending {y d : SimpleTokenDef} {l : List SimpleTokenDef} :
    y ∈ insertDescending d l ↔ y = d ∨ y ∈ l := by
  induction l with
  | nil => simp [insertDescending]
  | cons x xs ih =>
    by_cases hx : x.char_count ≤ d.char_count
    · simp [insertDescending, hx]
    · simp [insertDescending, hx, ih]
      tauto

theorem insertDescending_pairwise {d : SimpleTokenDef} {l : List SimpleTokenDef}
    (h : l.Pairwise (fun a b => b.char_count ≤ a.char_count)) :
    (insertDescending d l).Pairwise (fun a b => b.char_count ≤ a.char_count) := by
  induction l with
  | nil => simp [insertDescending]
  | cons x xs ih =>
    obtain ⟨hx, hxs⟩ := List.pairwise_cons.mp h
    by_cases hc : x.char_count ≤ d.char_count
    · rw [insertDescending, if_pos hc]
      refine List.pairwise_cons.mpr ⟨?_, h⟩
      intro y hy
      rcases List.mem_cons.mp hy with rfl | hy'
      · exact hc
      · exact le_trans (hx y hy') hc
    · rw [insertDescending, if_neg hc]
      refine List.pairwise_cons.mpr ⟨?_, ih hxs⟩
      intro y hy
      rcases mem_insertDescending.mp hy with rfl | hy'
      · omega
      · exact hx y hy'

theorem sortDescending_pairwise (l : List SimpleTokenDef) :
    (sortDescending l).Pairwise (fun a b => b.char_count ≤ a.char_count) := by
  induction l with
  | nil => simp [sortDescending]
  | cons x xs ih => exact insertDescending_pairwise ih

/-- In a table sorted by descending char count, `find?` returns a match of
maximal char count among all matches. -/
theorem find?_pairwise_max {p : SimpleTokenDef → Bool} {l : List SimpleTokenDef}
    (hsort : l.Pairwise (fun a b => b.char_count ≤ a.char_count))
    {d : SimpleTokenDef} (hd : d ∈ l) (hpd : p d = true) :
    ∃ r, l.find? p = some r ∧ p r = true ∧ d.char_count ≤ r.char_count := by
  induction l with
  | nil => simp at hd
  | cons x xs ih =>
    obtain ⟨hx, hxs⟩ := List.pairwise_cons.mp hsort
    by_cases hpx : p x = true
    · refine ⟨x, by simp [List.find?_cons_of_pos _ hpx], hpx, ?_⟩
      rcases List.mem_cons.mp hd with rfl | hd'
      · exact le_refl _
      · exact hx d hd'
    · have hd' : d ∈ xs := by
        rcases List.mem_cons.mp hd with rfl | hd'
        · exact absurd hpd hpx
        · exact hd'
      obtain ⟨r, hr, hpr, hle⟩ := ih hxs hd'
      exact ⟨r, by simp [List.find?_cons_of_neg _ hpx, hr], hpr, hle⟩

/-- C5: with a symbol table built by `to_tokenizer`, whenever some registered
symbol matches at a position, `find_token_at` returns a matching entry of
maximal symbol char-length — so a longer registered symbol (e.g. `++`) always
beats a shorter prefix of it (e.g. `+`).  Concretely, with one kind mapped to
`+` and another to `++`, the source `++,` tokenizes to the 2-char `++` token
at position 0 followed by `,` at position 2 — never two 1-char `+` tokens. -/
theorem C5_longest_match (spec : SimpleTokenSpec) (src : List Char) (d : SimpleTokenDef)
    (hd : d ∈ spec.to_tokenizer) (hpre : d.token.isPrefixOf src = true) :
    (∃ r, find_token_at src spec.to_tokenizer = some r ∧
      r.token.isPrefixOf src = true ∧ d.char_count ≤ r.char_count) ∧
    (simple_next (SimpleTokenSpec.to_tokenizer
        ⟨['+', '+'], ['<'], ['+'], ['-'], ['.'], [','], ['['], [']']⟩)
        ['+', '+', ','] 0 =
      ({ token := some { token_type := .PInc, token_str := "++" }, pos_in_chars := 0 },
        [','], 2)) ∧
    (simple_next (SimpleTokenSpec.to_tokenizer
        ⟨['+', '+'], ['<'], ['+'], ['-'], ['.'], [','], ['['], [']']⟩)
        [','] 2 =
      ({ token := some { token_type := .Input, token_str := "," }, pos_in_chars := 2 },
        [], 3)) ∧
    (simple_next (SimpleTokenSpec.to_tokenizer
        ⟨['+', '+'], ['<'], ['+'], ['-'], ['.'], [','], ['['], [']']⟩)
        [] 3 =
      ({ token := none, pos_in_chars := 3 }, [], 3)) := by
  refine ⟨?_, by rfl, by rfl, by rfl⟩
  exact find?_pairwise_max (sortDescending_pairwise _) hd hpre

/-- Witness for C5: the 1-char `+` (data-increment) symbol matches at the
start of `++,`, and the returned entry has char count at least 1 (it is in
fact the 2-char `++`). -/
theorem C5_longest_match_witness :
    (SimpleTokenDef.new ['+'] .DInc ∈ SimpleTokenSpec.to_tokenizer
      ⟨['+', '+'], ['<'], ['+'], ['-'], ['.'], [','], ['['], [']']⟩) ∧
    ((SimpleTokenDef.new ['+'] .DInc).token.isPrefixOf ['+', '+', ','] = true) ∧
    (∃ r, find_token_at ['+', '+', ','] (SimpleTokenSpec.to_tokenizer
        ⟨['+', '+'], ['<'], ['+'], ['-'], ['.'], [','], ['['], [']']⟩) = some r ∧
      r.token.isPrefixOf ['+', '+', ','] = true ∧
      (SimpleTokenDef.new ['+'] .DInc).char_count ≤ r.char_count) :=
  ⟨by decide, by decide,
    (C5_longest_match ⟨['+', '+'], ['<'], ['+'], ['-'], ['.'], [','], ['['], [']']⟩
      ['+', '+', ','] (SimpleTokenDef.new ['+'] .DInc) (by decide) (by decide)).1⟩
